import Mathlib

/-!
Verification of the coffee-shop discrete-event simulation
(`src/simulation.py`).

The Python program drives a deterministic single-queue multi-server
simulation through the SimPy event loop.  The embedding below models the
SimPy scheduler explicitly: the pending-event heap becomes a list kept
sorted by the key `(time, priority, eid)` (SimPy's `heapq` ordering, with
`URGENT = 0` used for process-start events and the `run(until=...)` stop
event, and `NORMAL = 1` used for timeouts), and each cooperative process is
represented by the events that resume it.  Simulated times and durations
are rationals.  Fallible operations (SimPy raises `ValueError` for
`run(until=t)` with `t <= now` and for negative timeout delays; Python
would raise on an out-of-range list index) return `Except`.
-/

/-- Event-log line kinds (the `Event type` CSV column). -/
inductive EType where
  | arrival
  | serviceStart
  | serviceDone
deriving DecidableEq, Repr

/-- One CSV line of the event log.  `length` and `available` are the values
the program prints (`self.cur_q_len` and `self.servers_available()`); the
ghost fields `g_len` and `g_avail` record the actual queue length and the
number of actually-free servers at the moment of emission, so that agreement
of the printed values with the true state is a provable statement. -/
structure LogEntry where
  time : ℚ
  etype : EType
  customer : Option Nat
  server : String
  length : Nat
  available : Nat
  g_len : Nat
  g_avail : Nat
deriving DecidableEq, Repr

/-- The `Customer` dataclass. -/
structure Customer where
  cid : Nat
  arrival_time : ℚ
  service_start_time : Option ℚ := none
  server_name : Option String := none
  service_time : Option ℚ := none
deriving DecidableEq, Repr

/-- The `Server` dataclass. -/
structure Server where
  name : String
  service_time : ℚ
  busy : Bool := false
  busy_time_accum : ℚ := 0
  last_state_change : ℚ := 0
  current_cid : Option Nat := none
deriving DecidableEq, Repr

/-- `Server.set_busy`: fold the elapsed busy interval into the accumulator,
then change the flag and reset the state-change timestamp. -/
def Server.setBusy (s : Server) (envNow : ℚ) (b : Bool) : Server :=
  { s with
    busy_time_accum :=
      if s.busy then s.busy_time_accum + (envNow - s.last_state_change)
      else s.busy_time_accum,
    busy := b,
    last_state_change := envNow }

/-- What a pending SimPy event does when popped.  `arrivalLoop` (re)enters
the top of the `arrivals_process` loop (both the process-start event and the
timeouts of the normal branch resume there); `arrivalFinal` resumes the
generator after its final `timeout(time_limit - now)`, where it just breaks;
`serviceInit` is the process-start event of `service_process(customer,
server)`; `serviceDone` is the resumption after its `timeout(service_time)`;
`stopEvent` is the event `env.run(until=...)` schedules. -/
inductive EKind where
  | arrivalLoop
  | arrivalFinal
  | serviceInit (cid : Nat) (sidx : Nat)
  | serviceDone (cid : Nat) (sidx : Nat) (st : ℚ)
  | stopEvent
deriving DecidableEq, Repr

/-- A pending scheduler entry: SimPy pushes `(time, priority, eid, event)`
onto a heap. -/
structure PEvent where
  time : ℚ
  pri : Nat
  eid : Nat
  kind : EKind
deriving DecidableEq, Repr

/-- Strict ordering of heap keys `(time, priority, eid)`. -/
def keyLt (a b : PEvent) : Prop :=
  a.time < b.time ∨
    (a.time = b.time ∧ (a.pri < b.pri ∨ (a.pri = b.pri ∧ a.eid < b.eid)))

instance keyLtDec (a b : PEvent) : Decidable (keyLt a b) :=
  inferInstanceAs (Decidable (a.time < b.time ∨
    (a.time = b.time ∧ (a.pri < b.pri ∨ (a.pri = b.pri ∧ a.eid < b.eid)))))

/-- Insert an event into the key-sorted pending list (the heap push; keys
are unique because event ids are). -/
def insertEvent (e : PEvent) : List PEvent → List PEvent
  | [] => [e]
  | h :: t => if keyLt e h then e :: h :: t else h :: insertEvent e t

/-- `self.servers_available()`: `sum(0 if s.busy else 1 for s in self.servers)`. -/
def serversAvailable (l : List Server) : Nat :=
  (l.map (fun s => if s.busy then 0 else 1)).sum

/-- Number of servers whose busy flag is off (direct recomputation). -/
def freeCount (l : List Server) : Nat := (l.filter (fun s => !s.busy)).length

/-- Number of servers whose busy flag is set. -/
def busyCount (l : List Server) : Nat := (l.filter (fun s => s.busy)).length

/-- The whole mutable state of `CoffeeShopSim` together with the SimPy
environment (clock, pending events, event-id counter). -/
structure SimState where
  now : ℚ
  interarrival_time : ℚ
  time_limit : ℚ
  servers : List Server
  nServers : Nat
  queue : List Customer
  next_cid : Nat
  area_under_q : ℚ
  last_q_change_time : ℚ
  cur_q_len : Nat
  max_q_len : Nat
  total_wait_time : ℚ
  count_started : Nat
  total_service_time_completed : ℚ
  count_completed : Nat
  waiting_customers : List (Nat × Customer)
  in_service : List (Nat × Customer)
  eventLog : List LogEntry
  pending : List PEvent
  next_eid : Nat
deriving DecidableEq, Repr

/-- `self._update_q_time_area(now)` (always invoked with `now = env.now`). -/
def updateQTimeArea (σ : SimState) : SimState :=
  let dt := σ.now - σ.last_q_change_time
  if 0 < dt then
    { σ with
      area_under_q := σ.area_under_q + (σ.cur_q_len : ℚ) * dt,
      last_q_change_time := σ.now }
  else σ

/-- `self._set_q_len(now, new_len)`. -/
def setQLen (σ : SimState) (newLen : Nat) : SimState :=
  let σ1 := updateQTimeArea σ
  { σ1 with cur_q_len := newLen, max_q_len := max σ1.max_q_len newLen }

/-- The CSV line `self.log(...)` emits: the printed length and availability
are read from `cur_q_len` and `servers_available()` at call time, and the
ghost fields record the directly recomputed state at the same moment. -/
def mkLogEntry (σ : SimState) (t : EType) (cust : Option Nat) (srv : String) :
    LogEntry :=
  ⟨σ.now, t, cust, srv, σ.cur_q_len, serversAvailable σ.servers,
    σ.queue.length, freeCount σ.servers⟩

/-- `self.log(...)`: appends one CSV line to the output. -/
def logEvent (σ : SimState) (t : EType) (cust : Option Nat) (srv : String) :
    SimState :=
  { σ with eventLog := σ.eventLog ++ [mkLogEntry σ t cust srv] }

/-- Push an event with a fresh event id (SimPy `schedule`). -/
def schedule (σ : SimState) (t : ℚ) (pri : Nat) (k : EKind) : SimState :=
  { σ with
    pending := insertEvent ⟨t, pri, σ.next_eid, k⟩ σ.pending,
    next_eid := σ.next_eid + 1 }

deriving instance DecidableEq for Except

/-- Errors the Python run can raise. -/
inductive RunErr where
  | valueError
  | indexError
  | emptySchedule
  | outOfFuel
deriving DecidableEq, Repr

/-- `yield self.env.timeout(delay)`: SimPy raises `ValueError` on a negative
delay, otherwise resumes the process at `now + delay` with NORMAL
priority. -/
def timeoutSched (σ : SimState) (delay : ℚ) (k : EKind) :
    Except RunErr SimState :=
  if delay < 0 then .error .valueError
  else .ok (schedule σ (σ.now + delay) 1 k)

/-- `dict.pop(key, None)` on an insertion-ordered association list. -/
def eraseKey (k : Nat) : List (Nat × Customer) → List (Nat × Customer)
  | [] => []
  | p :: t => if p.1 = k then t else p :: eraseKey k t

/-- `next(s for s in self.servers if not s.busy)` together with the position
of that server in the list. -/
def findFree : List Server → Option (Nat × Server)
  | [] => none
  | s :: t =>
    if s.busy then (findFree t).map (fun q => (q.1 + 1, q.2)) else some (0, s)

/-- One iteration of the `while` loop in `try_dispatch`: `none` when the
loop guard fails (empty queue or no free server). -/
def dispatchOne (σ : SimState) : Option SimState :=
  match σ.queue, findFree σ.servers with
  | c :: rest, some (i, s) =>
    let σ1 := { σ with
      queue := rest,
      waiting_customers := eraseKey c.cid σ.waiting_customers }
    let σ2 := setQLen σ1 rest.length
    let c' := { c with
      service_start_time := some σ.now,
      server_name := some s.name,
      service_time := some s.service_time }
    let σ3 := { σ2 with
      total_wait_time := σ2.total_wait_time + (σ.now - c.arrival_time),
      count_started := σ2.count_started + 1,
      servers := σ2.servers.set i
        (Server.setBusy { s with current_cid := some c.cid } σ.now true) }
    let σ4 := logEvent σ3 .serviceStart (some c.cid) s.name
    let σ5 := { σ4 with in_service := σ4.in_service ++ [(c.cid, c')] }
    some (schedule σ5 σ.now 0 (.serviceInit c.cid i))
  | _, _ => none

/-- Fueled unfolding of the `try_dispatch` loop; each iteration removes one
customer from the queue, so `queue.length` fuel always suffices. -/
def tryDispatchAux : Nat → SimState → SimState
  | 0, σ => σ
  | n + 1, σ =>
    match dispatchOne σ with
    | some σ' => tryDispatchAux n σ'
    | none => σ

/-- `self.try_dispatch()`. -/
def tryDispatch (σ : SimState) : SimState := tryDispatchAux σ.queue.length σ

/-- The body of `arrivals_process` between two suspension points: the
loop-top horizon check, creation and enqueueing of the next customer, the
ARRIVAL log line, the immediate dispatch attempt, and the scheduling of the
next resumption (normal branch, or the final advance to `time_limit`). -/
def handleArrival (σ : SimState) : Except RunErr SimState :=
  if σ.time_limit < σ.now then .ok σ
  else
    let c : Customer := { cid := σ.next_cid, arrival_time := σ.now }
    let σ1 := { σ with
      next_cid := σ.next_cid + 1,
      queue := σ.queue ++ [c],
      waiting_customers := σ.waiting_customers ++ [(c.cid, c)] }
    let σ2 := setQLen σ1 σ1.queue.length
    let σ3 := logEvent σ2 .arrival (some c.cid) ""
    let σ4 := tryDispatch σ3
    let nextT := σ4.now + σ4.interarrival_time
    if σ4.time_limit < nextT then
      timeoutSched σ4 (σ4.time_limit - σ4.now) .arrivalFinal
    else
      timeoutSched σ4 σ4.interarrival_time .arrivalLoop

/-- Start of `service_process(customer, server)`: read the server's
(constant) service time and suspend until `now + service_time`. -/
def handleServiceInit (σ : SimState) (cid i : Nat) : Except RunErr SimState :=
  match σ.servers[i]? with
  | none => .error .indexError
  | some s => timeoutSched σ s.service_time (.serviceDone cid i s.service_time)

/-- Rest of `service_process` after its timeout: completion statistics, free
the server, drop the customer from `in_service`, log SERVICE_DONE, and
immediately try to dispatch. -/
def handleServiceDone (σ : SimState) (cid i : Nat) (st : ℚ) :
    Except RunErr SimState :=
  match σ.servers[i]? with
  | none => .error .indexError
  | some s =>
    let σ1 := { σ with
      total_service_time_completed := σ.total_service_time_completed + st,
      count_completed := σ.count_completed + 1 }
    let s' := { Server.setBusy s σ.now false with current_cid := none }
    let σ2 := { σ1 with servers := σ1.servers.set i s' }
    let σ3 := { σ2 with in_service := eraseKey cid σ2.in_service }
    let σ4 := logEvent σ3 .serviceDone (some cid) s.name
    .ok (tryDispatch σ4)

/-- Result of processing one scheduler step. -/
inductive StepRes where
  | halt (σ : SimState)
  | next (σ : SimState)
  | fail (e : RunErr)
deriving DecidableEq, Repr

/-- Coerce a handler result into a step result. -/
def exceptRes : Except RunErr SimState → StepRes
  | .ok σ => .next σ
  | .error e => .fail e

/-- One `Environment.step()`: pop the least `(time, priority, eid)` entry,
advance the clock to its time, and execute it.  Popping the stop event
raises `StopSimulation`, ending the run with the clock at its time. -/
def step (σ : SimState) : StepRes :=
  match σ.pending with
  | [] => .fail .emptySchedule
  | e :: rest =>
    let σ1 := { σ with now := e.time, pending := rest }
    match e.kind with
    | .stopEvent => .halt σ1
    | .arrivalLoop => exceptRes (handleArrival σ1)
    | .arrivalFinal => .next σ1
    | .serviceInit cid i => exceptRes (handleServiceInit σ1 cid i)
    | .serviceDone cid i st => exceptRes (handleServiceDone σ1 cid i st)

/-- Drive the scheduler until the stop event is popped, with explicit
fuel. -/
def runAux : Nat → SimState → Except RunErr SimState
  | 0, _ => .error .outOfFuel
  | n + 1, σ =>
    match step σ with
    | .halt σ' => .ok σ'
    | .next σ' => runAux n σ'
    | .fail e => .error e

/-- The validated configuration the core consumes: the ordered server list
(name, service time), the interarrival time, and the time limit. -/
structure Config where
  servers : List (String × ℚ)
  interarrival : ℚ
  timeLimit : ℚ
deriving DecidableEq, Repr

/-- `CoffeeShopSim.__init__` followed by `env.process(self.arrivals_process())`
inside `run`: fresh statistics, and the arrival process-start event is
entry 0 of the schedule. -/
def initState (cfg : Config) : SimState :=
  { now := 0,
    interarrival_time := cfg.interarrival,
    time_limit := cfg.timeLimit,
    servers := cfg.servers.map (fun p => { name := p.1, service_time := p.2 }),
    nServers := cfg.servers.length,
    queue := [], next_cid := 1,
    area_under_q := 0, last_q_change_time := 0, cur_q_len := 0, max_q_len := 0,
    total_wait_time := 0, count_started := 0,
    total_service_time_completed := 0, count_completed := 0,
    waiting_customers := [], in_service := [], eventLog := [],
    pending := [⟨0, 0, 0, .arrivalLoop⟩], next_eid := 1 }

/-- The state on entry to the event loop: `env.run(until=time_limit)` has
scheduled its stop event (URGENT priority, event id 1) at `time_limit`. -/
def startState (cfg : Config) : SimState :=
  schedule (initState cfg) cfg.timeLimit 0 .stopEvent

/-- `CoffeeShopSim.run()`: `env.run(until=time_limit)` raises `ValueError`
when `time_limit <= env.now` (i.e. `time_limit <= 0`), otherwise processes
events until the stop event fires. -/
def runSim (cfg : Config) (fuel : Nat) : Except RunErr SimState :=
  if cfg.timeLimit ≤ 0 then .error .valueError
  else runAux fuel (startState cfg)

/-- The values printed by `finalize_and_print_stats`, in print order. -/
structure Report where
  avg_q_len : ℚ
  max_q_len : Nat
  avg_wait_time : ℚ
  queue_len_end : Nat
  avg_wait_remaining : ℚ
  count_completed : Nat
  avg_service_time_completed : ℚ
  num_in_service_end : Nat
  avg_service_time_in_service : ℚ
  per_server_util : List (String × ℚ)
  overall_util : ℚ
deriving DecidableEq, Repr

/-- The per-server close-out in the finalization loop: a busy server's open
interval is folded into its accumulator up to the end time. -/
def closeServer (endTime : ℚ) (s : Server) : Server :=
  if s.busy then
    { s with
      busy_time_accum := s.busy_time_accum + (endTime - s.last_state_change),
      last_state_change := endTime }
  else s

/-- `finalize_and_print_stats`: returns the printed aggregate values and the
state as mutated by finalization (the closed-out queue area and server
accumulators). -/
def finalizeStats (σ : SimState) : Report × SimState :=
  let endTime := σ.now
  let σ1 := updateQTimeArea σ
  let totalTime := max endTime 0
  let avgQ := if 0 < totalTime then σ1.area_under_q / totalTime else 0
  let avgWaitRemaining :=
    if σ1.waiting_customers.length ≠ 0 then
      ((σ1.waiting_customers.map (fun p => endTime - p.2.arrival_time)).sum) /
        (σ1.waiting_customers.length : ℚ)
    else 0
  let avgWait :=
    if 0 < σ1.count_started then σ1.total_wait_time / (σ1.count_started : ℚ)
    else 0
  let avgSvcCompleted :=
    if 0 < σ1.count_completed then
      σ1.total_service_time_completed / (σ1.count_completed : ℚ)
    else 0
  let numInService := busyCount σ1.servers
  let avgSvcInService :=
    if σ1.in_service.length ≠ 0 then
      ((σ1.in_service.map (fun p => p.2.service_time.getD 0)).sum) /
        (σ1.in_service.length : ℚ)
    else 0
  let servers2 := σ1.servers.map (closeServer endTime)
  let perUtil := servers2.map
    (fun s => (s.name, if 0 < totalTime then s.busy_time_accum / totalTime else 0))
  let busySum := (servers2.map (fun s => s.busy_time_accum)).sum
  let overall :=
    if 0 < σ1.nServers ∧ 0 < totalTime then
      busySum / ((σ1.nServers : ℚ) * totalTime)
    else 0
  (⟨avgQ, σ1.max_q_len, avgWait, σ1.cur_q_len, avgWaitRemaining,
    σ1.count_completed, avgSvcCompleted, numInService, avgSvcInService,
    perUtil, overall⟩,
   { σ1 with servers := servers2 })

/-- The printed CSV fields of one log line. -/
structure LogView where
  time : ℚ
  etype : EType
  customer : Option Nat
  server : String
  length : Nat
  available : Nat
deriving DecidableEq, Repr

/-- Projection of a log entry onto the printed CSV fields. -/
def viewEntry (e : LogEntry) : LogView :=
  ⟨e.time, e.etype, e.customer, e.server, e.length, e.available⟩

/-- The observable outcome of a run: the printed log lines and the aggregate
report (or `none` if the run raised). -/
def runView (cfg : Config) (fuel : Nat) : Option (List LogView × Report) :=
  (runSim cfg fuel).toOption.map
    (fun σ => (σ.eventLog.map viewEntry, (finalizeStats σ).1))


/-- Is a log line an ARRIVAL line? -/
def isArrivalEntry (e : LogEntry) : Bool :=
  match e.etype with
  | .arrival => true
  | _ => false

/-- Is a log line a SERVICE_START line? -/
def isStartEntry (e : LogEntry) : Bool :=
  match e.etype with
  | .serviceStart => true
  | _ => false

/-- Is a log line a SERVICE_DONE line? -/
def isDoneEntry (e : LogEntry) : Bool :=
  match e.etype with
  | .serviceDone => true
  | _ => false

/-- The times of the ARRIVAL lines of a log, in log order. -/
def arrivalTimes (l : List LogEntry) : List ℚ :=
  (l.filter isArrivalEntry).map (fun e => e.time)

/-- The customer ids of the SERVICE_START lines of a log, in log order. -/
def startedCids (l : List LogEntry) : List Nat :=
  (l.filter isStartEntry).filterMap (fun e => e.customer)

/-- Is a pending event part of the arrival process? -/
def isArrivalEv (e : PEvent) : Bool :=
  match e.kind with
  | .arrivalLoop => true
  | .arrivalFinal => true
  | _ => false

/-- Is a pending event a service process-start event? -/
def isServiceInitEv (e : PEvent) : Bool :=
  match e.kind with
  | .serviceInit _ _ => true
  | _ => false

/-- Is a pending event a service completion event? -/
def isServiceDoneEv (e : PEvent) : Bool :=
  match e.kind with
  | .serviceDone _ _ _ => true
  | _ => false

/-- Is a pending event the final arrival-generator resumption? -/
def isArrivalFinalEv (e : PEvent) : Bool :=
  match e.kind with
  | .arrivalFinal => true
  | _ => false

/-- The customer id and server index a service event refers to. -/
def svcTarget : EKind → Option (Nat × Nat)
  | .serviceInit c i => some (c, i)
  | .serviceDone c i _ => some (c, i)
  | _ => none

/-- Iterate `step` while it continues; `none` when the run halts, fails, or
would need more steps. -/
def stepIter : Nat → SimState → Option SimState
  | 0, σ => some σ
  | n + 1, σ =>
    match step σ with
    | .next σ' => stepIter n σ'
    | _ => none

/-- A state the event loop passes through during the run for `cfg` (the
states between event executions, starting from the state with the stop
event scheduled). -/
def Reach (cfg : Config) (σ : SimState) : Prop :=
  0 < cfg.timeLimit ∧ ∃ n, stepIter n (startState cfg) = some σ

/-- The stop event `env.run(until=time_limit)` schedules. -/
def stopEventOf (cfg : Config) : PEvent := ⟨cfg.timeLimit, 0, 1, .stopEvent⟩

/-- The arrival-process bookkeeping invariant: `k` customers have arrived so
far (at times `0, Δ, …, (k-1)·Δ`, all before the horizon), and the pending
list holds exactly one arrival-process event: either the next loop
resumption at `k·Δ`, or the final advance to the horizon (scheduled with
timeout priority) when `k·Δ` overshoots it. -/
def ArrClause (cfg : Config) (σ : SimState) : Prop :=
  ∃ k : ℕ, σ.next_cid = k + 1 ∧
    arrivalTimes σ.eventLog =
      (List.range k).map (fun m : ℕ => (m : ℚ) * cfg.interarrival) ∧
    (∀ t ∈ arrivalTimes σ.eventLog, t < cfg.timeLimit) ∧
    (∃ e, e ∈ σ.pending ∧
      (∀ e' ∈ σ.pending, isArrivalEv e' = true → e' = e) ∧
      ((e.kind = EKind.arrivalLoop ∧ e.time = (k : ℚ) * cfg.interarrival ∧
          (e.pri = 1 ∨ e.time = 0)) ∨
       (e.kind = EKind.arrivalFinal ∧ e.time = cfg.timeLimit ∧ e.pri = 1 ∧
          cfg.timeLimit < (k : ℚ) * cfg.interarrival)))

/-- The part of the event-loop invariant that the dispatcher preserves
iteration by iteration (everything except the arrival-process clause, which
is momentarily broken while the arrival handler itself is running). -/
structure CoreInv (cfg : Config) (σ : SimState) : Prop where
  hT : 0 < cfg.timeLimit
  hIa : σ.interarrival_time = cfg.interarrival
  hTl : σ.time_limit = cfg.timeLimit
  hN : σ.nServers = cfg.servers.length
  hStatic : σ.servers.map (fun s => (s.name, s.service_time)) = cfg.servers
  sorted : σ.pending.Pairwise keyLt
  eidBound : ∀ e ∈ σ.pending, e.eid < σ.next_eid
  timesGE : ∀ e ∈ σ.pending, σ.now ≤ e.time
  stopMem : stopEventOf cfg ∈ σ.pending
  stopUniq : ∀ e ∈ σ.pending, e.kind = EKind.stopEvent → e = stopEventOf cfg
  qlen : σ.cur_q_len = σ.queue.length
  qwait : σ.queue.map (fun c => c.cid) = σ.waiting_customers.map (fun p => p.1)
  counts : σ.count_started = σ.count_completed + busyCount σ.servers
  svcLen : σ.in_service.length = busyCount σ.servers
  svcOK : ∀ e ∈ σ.pending, ∀ c i, svcTarget e.kind = some (c, i) →
    ∃ s, σ.servers[i]? = some s ∧ s.busy = true ∧ s.current_cid = some c ∧
      c ∈ σ.in_service.map (fun p => p.1)
  svcNodup : ∀ e ∈ σ.pending, ∀ e' ∈ σ.pending, ∀ c i c' i',
    svcTarget e.kind = some (c, i) → svcTarget e'.kind = some (c', i') →
    e ≠ e' → i ≠ i' ∧ c ≠ c'
  busyHasSvc : ∀ i s, σ.servers[i]? = some s → s.busy = true →
    ∃ e ∈ σ.pending, ∃ c, svcTarget e.kind = some (c, i)
  waitDisj : ∀ c ∈ σ.waiting_customers.map (fun p => p.1),
    c ∉ σ.in_service.map (fun p => p.1)
  waitBound : ∀ c ∈ σ.waiting_customers.map (fun p => p.1), c < σ.next_cid
  svcBound : ∀ c ∈ σ.in_service.map (fun p => p.1), c < σ.next_cid
  startedBound : ∀ c ∈ startedCids σ.eventLog, c < σ.next_cid
  queueSorted : (σ.queue.map (fun c => c.cid)).Pairwise (· < ·)
  startedSorted : (startedCids σ.eventLog).Pairwise (· < ·)
  queueAfterStarted : ∀ a ∈ startedCids σ.eventLog,
    ∀ b ∈ σ.queue.map (fun c => c.cid), a < b
  logTimesMono : (σ.eventLog.map (fun e => e.time)).Pairwise (· ≤ ·)
  logTimesLE : ∀ e ∈ σ.eventLog, e.time ≤ σ.now
  logGhost : ∀ e ∈ σ.eventLog, e.length = e.g_len ∧ e.available = e.g_avail
  waitCount : σ.next_cid = 1 + σ.waiting_customers.length + σ.count_started

/-- The master reachability invariant of the event loop. -/
structure SimInv (cfg : Config) (σ : SimState)
    extends CoreInv cfg σ : Prop where
  arr : ArrClause cfg σ

/-- Fuel potential for termination: bounds the number of remaining event
loop steps when the interarrival time is positive. -/
def phi (cfg : Config) (σ : SimState) : Nat :=
  5 * (Nat.ceil (cfg.timeLimit / cfg.interarrival) + 1 - σ.next_cid) +
    3 * σ.queue.length + 3 * σ.pending.countP isServiceInitEv +
    σ.pending.countP isServiceDoneEv + σ.pending.countP isArrivalFinalEv

/-- The spec's concrete scenario: one server `S1` with service time 4,
interarrival time 3, horizon 10. -/
def scenarioCfg : Config := ⟨[("S1", 4)], 3, 10⟩

/-- The scenario configuration with the horizon shrunk to 3, a multiple of
the interarrival time. -/
def cfgH3 : Config := ⟨[("S1", 4)], 3, 3⟩

/-- The scenario configuration with horizon 0. -/
def cfgH0 : Config := ⟨[("S1", 4)], 3, 0⟩

/-- The scenario configuration with interarrival time 0. -/
def cfgIa0 : Config := ⟨[("S1", 4)], 0, 10⟩

/-- The scenario start state with one waiting customer enqueued, used to
exercise the dispatcher. -/
def dispatchProbe : SimState :=
  { startState scenarioCfg with queue := [{ cid := 1, arrival_time := 0 }] }

/-- The dispatcher's output on the probe state. -/
def dispatchProbeRes : SimState := (dispatchOne dispatchProbe).getD dispatchProbe

/-- The final state of the scenario run. -/
def scenarioFinal : SimState :=
  (runSim scenarioCfg 40).toOption.getD (startState scenarioCfg)

/-- The scenario run's state after three event-loop steps. -/
def scenarioMid3 : SimState :=
  (stepIter 3 (startState scenarioCfg)).getD (startState scenarioCfg)


/-! Basic lemmas about the helper operations. -/

theorem serversAvailable_eq_freeCount (l : List Server) :
    serversAvailable l = freeCount l := by
  induction l with
  | nil => rfl
  | cons s t ih =>
    by_cases hb : s.busy <;>
      simp [serversAvailable, freeCount, List.filter_cons, hb] at ih ⊢ <;>
      omega

theorem keyLt_total (a b : PEvent) (h : a.eid ≠ b.eid) :
    keyLt a b ∨ keyLt b a := by
  unfold keyLt
  rcases lt_trichotomy a.time b.time with ht | ht | ht
  · exact Or.inl (Or.inl ht)
  · rcases Nat.lt_trichotomy a.pri b.pri with hp | hp | hp
    · exact Or.inl (Or.inr ⟨ht, Or.inl hp⟩)
    · rcases Nat.lt_trichotomy a.eid b.eid with he | he | he
      · exact Or.inl (Or.inr ⟨ht, Or.inr ⟨hp, he⟩⟩)
      · exact absurd he h
      · exact Or.inr (Or.inr ⟨ht.symm, Or.inr ⟨hp.symm, he⟩⟩)
    · exact Or.inr (Or.inr ⟨ht.symm, Or.inl hp⟩)
  · exact Or.inr (Or.inl ht)

theorem keyLt_trans {a b c : PEvent} (h1 : keyLt a b) (h2 : keyLt b c) :
    keyLt a c := by
  unfold keyLt at *
  rcases h1 with h1 | ⟨h1t, h1⟩ <;> rcases h2 with h2 | ⟨h2t, h2⟩
  · exact Or.inl (h1.trans h2)
  · exact Or.inl (h2t ▸ h1)
  · exact Or.inl (h1t ▸ h2)
  · refine Or.inr ⟨h1t.trans h2t, ?_⟩
    rcases h1 with h1 | ⟨h1p, h1⟩ <;> rcases h2 with h2 | ⟨h2p, h2⟩
    · exact Or.inl (h1.trans h2)
    · exact Or.inl (h2p ▸ h1)
    · exact Or.inl (h1p ▸ h2)
    · exact Or.inr ⟨h1p.trans h2p, h1.trans h2⟩

theorem mem_insertEvent {x e : PEvent} {l : List PEvent} :
    x ∈ insertEvent e l ↔ x = e ∨ x ∈ l := by
  induction l with
  | nil => simp [insertEvent]
  | cons h t ih =>
    simp only [insertEvent]
    split
    · simp [or_comm, or_assoc, or_left_comm]
    · simp [ih]
      tauto

theorem insertEvent_perm (e : PEvent) (l : List PEvent) :
    (insertEvent e l).Perm (e :: l) := by
  induction l with
  | nil => simp [insertEvent]
  | cons h t ih =>
    simp only [insertEvent]
    split
    · exact List.Perm.refl _
    · exact (ih.cons h).trans (List.Perm.swap e h t)

theorem insertEvent_countP (e : PEvent) (l : List PEvent) (p : PEvent → Bool) :
    (insertEvent e l).countP p = (e :: l).countP p :=
  (insertEvent_perm e l).countP_eq p

theorem insertEvent_pairwise {e : PEvent} {l : List PEvent}
    (h : l.Pairwise keyLt) (hne : ∀ x ∈ l, x.eid ≠ e.eid) :
    (insertEvent e l).Pairwise keyLt := by
  induction l with
  | nil => simp [insertEvent]
  | cons a t ih =>
    rcases List.pairwise_cons.1 h with ⟨ha, ht⟩
    simp only [insertEvent]
    split
    · rename_i hlt
      refine List.pairwise_cons.2 ⟨?_, h⟩
      intro x hx
      cases hx with
      | head => exact hlt
      | tail _ hx => exact keyLt_trans hlt (ha _ hx)
    · rename_i hnlt
      have hae : keyLt a e := by
        rcases keyLt_total a e (fun hh => hne a (by simp) (by omega)) with
          h1 | h1
        · exact h1
        · exact absurd h1 hnlt
      refine List.pairwise_cons.2
        ⟨?_, ih ht (fun x hx => hne x (List.mem_cons_of_mem _ hx))⟩
      intro x hx
      rcases mem_insertEvent.1 hx with rfl | hx
      · exact hae
      · exact ha _ hx

theorem findFree_some {l : List Server} {i : Nat} {s : Server}
    (h : findFree l = some (i, s)) : l[i]? = some s ∧ s.busy = false := by
  induction l generalizing i with
  | nil => simp [findFree] at h
  | cons a t ih =>
    simp only [findFree] at h
    split at h
    · rcases Option.map_eq_some'.1 h with ⟨⟨j, s'⟩, hj, he⟩
      cases he
      have := ih hj
      simpa using this
    · rename_i hb
      cases h
      simp [Bool.not_eq_true] at hb
      simp [hb]

theorem findFree_first {l : List Server} {i : Nat} {s : Server}
    (h : findFree l = some (i, s)) :
    ∀ j, j < i → ∀ sj, l[j]? = some sj → sj.busy = true := by
  induction l generalizing i with
  | nil => simp [findFree] at h
  | cons a t ih =>
    simp only [findFree] at h
    split at h
    · rename_i hb
      rcases Option.map_eq_some'.1 h with ⟨⟨j', s'⟩, hj, he⟩
      cases he
      intro j hj2 sj hsj
      cases j with
      | zero =>
        simp only [List.getElem?_cons_zero, Option.some.injEq] at hsj
        exact hsj ▸ hb
      | succ j => exact ih hj j (by omega) sj (by simpa using hsj)
    · have hia : 0 = i ∧ a = s := by simpa using h
      obtain ⟨rfl, rfl⟩ := hia
      intro j hj
      exact absurd hj (by omega)

theorem eraseKey_cons_self {k : Nat} {w : Nat × Customer}
    {t : List (Nat × Customer)} (h : w.1 = k) : eraseKey k (w :: t) = t := by
  simp [eraseKey, h]

theorem eraseKey_sublist (k : Nat) (l : List (Nat × Customer)) :
    (eraseKey k l).Sublist l := by
  induction l with
  | nil => simp [eraseKey]
  | cons w t ih =>
    simp only [eraseKey]
    split
    · exact (List.sublist_cons_self w t)
    · exact ih.cons₂ w

theorem length_eraseKey_of_mem {k : Nat} {l : List (Nat × Customer)}
    (h : k ∈ l.map (fun p => p.1)) :
    (eraseKey k l).length + 1 = l.length := by
  induction l with
  | nil => simp at h
  | cons w t ih =>
    simp only [eraseKey]
    split
    · simp
    · rename_i hw
      simp only [List.map_cons, List.mem_cons] at h
      rcases h with h | h
      · exact absurd h.symm hw
      · simp [ih h]

theorem mem_map_fst_eraseKey {k c : Nat} {l : List (Nat × Customer)}
    (hc : c ∈ l.map (fun p => p.1)) (hne : c ≠ k) :
    c ∈ (eraseKey k l).map (fun p => p.1) := by
  induction l with
  | nil => simp at hc
  | cons w t ih =>
    simp only [eraseKey]
    split
    · rename_i hw
      simp only [List.map_cons, List.mem_cons] at hc
      rcases hc with rfl | hc
      · exact absurd hw hne
      · exact hc
    · simp only [List.map_cons, List.mem_cons] at hc ⊢
      rcases hc with rfl | hc
      · exact Or.inl rfl
      · exact Or.inr (ih hc)

theorem map_fst_eraseKey_sub {l : List (Nat × Customer)} {k c : Nat}
    (h : c ∈ (eraseKey k l).map (fun p => p.1)) : c ∈ l.map (fun p => p.1) :=
  ((eraseKey_sublist k l).map (fun p => p.1)).mem h

theorem countP_set (l : List Server) (i : Nat) (a b : Server)
    (p : Server → Bool) (h : l[i]? = some b) :
    (l.set i a).countP p + (if p b then 1 else 0) =
      l.countP p + (if p a then 1 else 0) := by
  induction l generalizing i with
  | nil => simp at h
  | cons x t ih =>
    cases i with
    | zero =>
      simp only [List.getElem?_cons_zero, Option.some.injEq] at h
      subst h
      simp only [List.set_cons_zero, List.countP_cons]
      omega
    | succ i =>
      simp only [List.getElem?_cons_succ] at h
      simp only [List.set_cons_succ, List.countP_cons]
      have := ih i h
      omega

theorem busyCount_eq_countP (l : List Server) :
    busyCount l = l.countP (fun s => s.busy) := by
  simp [busyCount, List.countP_eq_length_filter]

theorem busyCount_set_busy {l : List Server} {i : Nat} {s s' : Server}
    (h : l[i]? = some s) (hs : s.busy = false) (hs' : s'.busy = true) :
    busyCount (l.set i s') = busyCount l + 1 := by
  have := countP_set l i s' s (fun s => s.busy) h
  simp [hs, hs'] at this
  simp only [busyCount_eq_countP]
  omega

theorem busyCount_set_free {l : List Server} {i : Nat} {s s' : Server}
    (h : l[i]? = some s) (hs : s.busy = true) (hs' : s'.busy = false) :
    busyCount l = busyCount (l.set i s') + 1 := by
  have := countP_set l i s' s (fun s => s.busy) h
  simp [hs, hs'] at this
  simp only [busyCount_eq_countP]
  omega

theorem map_set_eq_of_eq {l : List Server} {i : Nat} {s s' : Server}
    (h : l[i]? = some s)
    (heq : (s'.name, s'.service_time) = (s.name, s.service_time)) :
    (l.set i s').map (fun s => (s.name, s.service_time)) =
      l.map (fun s => (s.name, s.service_time)) := by
  induction l generalizing i with
  | nil => simp
  | cons x t ih =>
    cases i with
    | zero =>
      simp only [List.getElem?_cons_zero, Option.some.injEq] at h
      subst h
      simp [heq]
    | succ i =>
      simp only [List.getElem?_cons_succ] at h
      simp [ih h]

/-! Projection lemmas: `_update_q_time_area` only touches the area
accumulator and its timestamp. -/

@[simp] theorem updQ_now (σ : SimState) :
    (updateQTimeArea σ).now = σ.now := by
  simp only [updateQTimeArea]
  split <;> rfl

@[simp] theorem updQ_interarrival_time (σ : SimState) :
    (updateQTimeArea σ).interarrival_time = σ.interarrival_time := by
  simp only [updateQTimeArea]
  split <;> rfl

@[simp] theorem updQ_time_limit (σ : SimState) :
    (updateQTimeArea σ).time_limit = σ.time_limit := by
  simp only [updateQTimeArea]
  split <;> rfl

@[simp] theorem updQ_servers (σ : SimState) :
    (updateQTimeArea σ).servers = σ.servers := by
  simp only [updateQTimeArea]
  split <;> rfl

@[simp] theorem updQ_nServers (σ : SimState) :
    (updateQTimeArea σ).nServers = σ.nServers := by
  simp only [updateQTimeArea]
  split <;> rfl

@[simp] theorem updQ_queue (σ : SimState) :
    (updateQTimeArea σ).queue = σ.queue := by
  simp only [updateQTimeArea]
  split <;> rfl

@[simp] theorem updQ_next_cid (σ : SimState) :
    (updateQTimeArea σ).next_cid = σ.next_cid := by
  simp only [updateQTimeArea]
  split <;> rfl

@[simp] theorem updQ_cur_q_len (σ : SimState) :
    (updateQTimeArea σ).cur_q_len = σ.cur_q_len := by
  simp only [updateQTimeArea]
  split <;> rfl

@[simp] theorem updQ_max_q_len (σ : SimState) :
    (updateQTimeArea σ).max_q_len = σ.max_q_len := by
  simp only [updateQTimeArea]
  split <;> rfl

@[simp] theorem updQ_total_wait_time (σ : SimState) :
    (updateQTimeArea σ).total_wait_time = σ.total_wait_time := by
  simp only [updateQTimeArea]
  split <;> rfl

@[simp] theorem updQ_count_started (σ : SimState) :
    (updateQTimeArea σ).count_started = σ.count_started := by
  simp only [updateQTimeArea]
  split <;> rfl

@[simp] theorem updQ_total_service_time_completed (σ : SimState) :
    (updateQTimeArea σ).total_service_time_completed = σ.total_service_time_completed := by
  simp only [updateQTimeArea]
  split <;> rfl

@[simp] theorem updQ_count_completed (σ : SimState) :
    (updateQTimeArea σ).count_completed = σ.count_completed := by
  simp only [updateQTimeArea]
  split <;> rfl

@[simp] theorem updQ_waiting_customers (σ : SimState) :
    (updateQTimeArea σ).waiting_customers = σ.waiting_customers := by
  simp only [updateQTimeArea]
  split <;> rfl

@[simp] theorem updQ_in_service (σ : SimState) :
    (updateQTimeArea σ).in_service = σ.in_service := by
  simp only [updateQTimeArea]
  split <;> rfl

@[simp] theorem updQ_eventLog (σ : SimState) :
    (updateQTimeArea σ).eventLog = σ.eventLog := by
  simp only [updateQTimeArea]
  split <;> rfl

@[simp] theorem updQ_pending (σ : SimState) :
    (updateQTimeArea σ).pending = σ.pending := by
  simp only [updateQTimeArea]
  split <;> rfl

@[simp] theorem updQ_next_eid (σ : SimState) :
    (updateQTimeArea σ).next_eid = σ.next_eid := by
  simp only [updateQTimeArea]
  split <;> rfl


@[simp] theorem setQLen_cur (σ : SimState) (n : Nat) :
    (setQLen σ n).cur_q_len = n := rfl

@[simp] theorem setQLen_max (σ : SimState) (n : Nat) :
    (setQLen σ n).max_q_len = max σ.max_q_len n := by
  simp [setQLen]

@[simp] theorem setQLen_now (σ : SimState) (n : Nat) :
    (setQLen σ n).now = σ.now := by
  simp [setQLen]

@[simp] theorem setQLen_interarrival_time (σ : SimState) (n : Nat) :
    (setQLen σ n).interarrival_time = σ.interarrival_time := by
  simp [setQLen]

@[simp] theorem setQLen_time_limit (σ : SimState) (n : Nat) :
    (setQLen σ n).time_limit = σ.time_limit := by
  simp [setQLen]

@[simp] theorem setQLen_servers (σ : SimState) (n : Nat) :
    (setQLen σ n).servers = σ.servers := by
  simp [setQLen]

@[simp] theorem setQLen_nServers (σ : SimState) (n : Nat) :
    (setQLen σ n).nServers = σ.nServers := by
  simp [setQLen]

@[simp] theorem setQLen_queue (σ : SimState) (n : Nat) :
    (setQLen σ n).queue = σ.queue := by
  simp [setQLen]

@[simp] theorem setQLen_next_cid (σ : SimState) (n : Nat) :
    (setQLen σ n).next_cid = σ.next_cid := by
  simp [setQLen]

@[simp] theorem setQLen_total_wait_time (σ : SimState) (n : Nat) :
    (setQLen σ n).total_wait_time = σ.total_wait_time := by
  simp [setQLen]

@[simp] theorem setQLen_count_started (σ : SimState) (n : Nat) :
    (setQLen σ n).count_started = σ.count_started := by
  simp [setQLen]

@[simp] theorem setQLen_total_service_time_completed (σ : SimState) (n : Nat) :
    (setQLen σ n).total_service_time_completed = σ.total_service_time_completed := by
  simp [setQLen]

@[simp] theorem setQLen_count_completed (σ : SimState) (n : Nat) :
    (setQLen σ n).count_completed = σ.count_completed := by
  simp [setQLen]

@[simp] theorem setQLen_waiting_customers (σ : SimState) (n : Nat) :
    (setQLen σ n).waiting_customers = σ.waiting_customers := by
  simp [setQLen]

@[simp] theorem setQLen_in_service (σ : SimState) (n : Nat) :
    (setQLen σ n).in_service = σ.in_service := by
  simp [setQLen]

@[simp] theorem setQLen_eventLog (σ : SimState) (n : Nat) :
    (setQLen σ n).eventLog = σ.eventLog := by
  simp [setQLen]

@[simp] theorem setQLen_pending (σ : SimState) (n : Nat) :
    (setQLen σ n).pending = σ.pending := by
  simp [setQLen]

@[simp] theorem setQLen_next_eid (σ : SimState) (n : Nat) :
    (setQLen σ n).next_eid = σ.next_eid := by
  simp [setQLen]

/-! Characterization of a dispatch iteration. -/

theorem dispatchOne_nil {σ : SimState} (h : σ.queue = []) :
    dispatchOne σ = none := by
  cases hf : findFree σ.servers <;> simp [dispatchOne, h, hf]

theorem dispatchOne_noneFree {σ : SimState} (h : findFree σ.servers = none) :
    dispatchOne σ = none := by
  cases hq : σ.queue <;> simp [dispatchOne, h, hq]

theorem dispatchOne_some {σ σ' : SimState} (h : dispatchOne σ = some σ') :
    ∃ c rest i s, σ.queue = c :: rest ∧ findFree σ.servers = some (i, s) ∧
      σ'.now = σ.now ∧
      σ'.interarrival_time = σ.interarrival_time ∧
      σ'.time_limit = σ.time_limit ∧
      σ'.nServers = σ.nServers ∧
      σ'.queue = rest ∧
      σ'.waiting_customers = eraseKey c.cid σ.waiting_customers ∧
      σ'.next_cid = σ.next_cid ∧
      σ'.cur_q_len = rest.length ∧
      σ'.max_q_len = max σ.max_q_len rest.length ∧
      σ'.count_started = σ.count_started + 1 ∧
      σ'.count_completed = σ.count_completed ∧
      σ'.total_wait_time = σ.total_wait_time + (σ.now - c.arrival_time) ∧
      σ'.total_service_time_completed = σ.total_service_time_completed ∧
      σ'.servers = σ.servers.set i
        (Server.setBusy { s with current_cid := some c.cid } σ.now true) ∧
      σ'.in_service = σ.in_service ++
        [(c.cid,
          { c with
            service_start_time := some σ.now
            server_name := some s.name
            service_time := some s.service_time })] ∧
      σ'.eventLog = σ.eventLog ++
        [⟨σ.now, .serviceStart, some c.cid, s.name, rest.length,
          serversAvailable σ'.servers, rest.length, freeCount σ'.servers⟩] ∧
      σ'.pending =
        insertEvent ⟨σ.now, 0, σ.next_eid, .serviceInit c.cid i⟩ σ.pending ∧
      σ'.next_eid = σ.next_eid + 1 := by
  match hq : σ.queue, hf : findFree σ.servers with
  | [], _ => simp [dispatchOne_nil hq] at h
  | _ :: _, none => simp [dispatchOne_noneFree hf] at h
  | c :: rest, some (i, s) =>
    refine ⟨c, rest, i, s, rfl, rfl, ?_⟩
    simp only [dispatchOne, hq, hf, Option.some.injEq] at h
    subst h
    simp [schedule, logEvent, mkLogEntry]

theorem dispatchOne_queue_length {σ σ' : SimState}
    (h : dispatchOne σ = some σ') : σ'.queue.length < σ.queue.length := by
  obtain ⟨c, rest, i, s, hq, _, _, _, _, _, hq', _⟩ := dispatchOne_some h
  simp [hq, hq']

theorem tryDispatchAux_fuel {n : Nat} {σ : SimState}
    (h : σ.queue.length ≤ n) :
    tryDispatchAux (n + 1) σ = tryDispatchAux n σ := by
  induction n generalizing σ with
  | zero =>
    have hq : σ.queue = [] := List.length_eq_zero.1 (Nat.le_zero.1 h)
    simp [tryDispatchAux, dispatchOne_nil hq]
  | succ n ih =>
    show (match dispatchOne σ with
      | some σ' => tryDispatchAux (n + 1) σ'
      | none => σ) = _
    cases hd : dispatchOne σ with
    | none => simp [tryDispatchAux, hd]
    | some σ' =>
      have := dispatchOne_queue_length hd
      simp only [tryDispatchAux, hd]
      exact ih (by omega)

theorem tryDispatchAux_ge {σ : SimState} {n : Nat} (hn : σ.queue.length ≤ n) :
    tryDispatchAux n σ = tryDispatch σ := by
  induction n, hn using Nat.le_induction with
  | base => rfl
  | succ n hn ih => rw [tryDispatchAux_fuel hn, ih]

theorem tryDispatch_unfold (σ : SimState) :
    tryDispatch σ =
      match dispatchOne σ with
      | some σ' => tryDispatch σ'
      | none => σ := by
  cases hd : dispatchOne σ with
  | none =>
    cases hq : σ.queue with
    | nil => simp [tryDispatch, hq, tryDispatchAux]
    | cons c rest => simp [tryDispatch, hq, tryDispatchAux, hd]
  | some σ' =>
    have hlt := dispatchOne_queue_length hd
    cases hq : σ.queue with
    | nil => rw [dispatchOne_nil hq] at hd; cases hd
    | cons c rest =>
      show tryDispatchAux σ.queue.length σ = _
      rw [hq]
      show tryDispatchAux (rest.length + 1) σ = _
      simp only [tryDispatchAux, hd]
      exact tryDispatchAux_ge (by rw [hq] at hlt; simp at hlt; omega)

theorem keyLt_time_le {a b : PEvent} (h : keyLt a b) : a.time ≤ b.time := by
  rcases h with h | ⟨h, _⟩
  · exact le_of_lt h
  · exact le_of_eq h

theorem arrivalTimes_append (l1 l2 : List LogEntry) :
    arrivalTimes (l1 ++ l2) = arrivalTimes l1 ++ arrivalTimes l2 := by
  simp [arrivalTimes, List.filter_append]

theorem startedCids_append (l1 l2 : List LogEntry) :
    startedCids (l1 ++ l2) = startedCids l1 ++ startedCids l2 := by
  simp [startedCids, List.filter_append]

theorem mem_arrivalTimes {l : List LogEntry} {t : ℚ} :
    t ∈ arrivalTimes l ↔ ∃ e ∈ l, isArrivalEntry e = true ∧ e.time = t := by
  simp only [arrivalTimes, List.mem_map, List.mem_filter]
  constructor
  · rintro ⟨e, ⟨he, ha⟩, rfl⟩
    exact ⟨e, he, ha, rfl⟩
  · rintro ⟨e, he, ha, rfl⟩
    exact ⟨e, ⟨he, ha⟩, rfl⟩

@[simp] theorem arrivalTimes_nil : arrivalTimes [] = [] := rfl

@[simp] theorem startedCids_nil : startedCids [] = [] := rfl

@[simp] theorem arrivalTimes_singleton_arrival
    (t : ℚ) (cu : Option Nat) (sv : String) (a b gl ga : Nat) :
    arrivalTimes [⟨t, .arrival, cu, sv, a, b, gl, ga⟩] = [t] := rfl

@[simp] theorem arrivalTimes_singleton_start
    (t : ℚ) (cu : Option Nat) (sv : String) (a b gl ga : Nat) :
    arrivalTimes [⟨t, .serviceStart, cu, sv, a, b, gl, ga⟩] = [] := rfl

@[simp] theorem arrivalTimes_singleton_done
    (t : ℚ) (cu : Option Nat) (sv : String) (a b gl ga : Nat) :
    arrivalTimes [⟨t, .serviceDone, cu, sv, a, b, gl, ga⟩] = [] := rfl

@[simp] theorem startedCids_singleton_arrival
    (t : ℚ) (cu : Option Nat) (sv : String) (a b gl ga : Nat) :
    startedCids [⟨t, .arrival, cu, sv, a, b, gl, ga⟩] = [] := rfl

@[simp] theorem startedCids_singleton_start
    (t : ℚ) (cid : Nat) (sv : String) (a b gl ga : Nat) :
    startedCids [⟨t, .serviceStart, some cid, sv, a, b, gl, ga⟩] = [cid] := rfl

@[simp] theorem startedCids_singleton_done
    (t : ℚ) (cu : Option Nat) (sv : String) (a b gl ga : Nat) :
    startedCids [⟨t, .serviceDone, cu, sv, a, b, gl, ga⟩] = [] := rfl

@[simp] theorem arrivalTimes_singleton_mk_arrival
    (σ : SimState) (cu : Option Nat) (sv : String) :
    arrivalTimes [mkLogEntry σ .arrival cu sv] = [σ.now] := rfl

@[simp] theorem arrivalTimes_singleton_mk_start
    (σ : SimState) (cu : Option Nat) (sv : String) :
    arrivalTimes [mkLogEntry σ .serviceStart cu sv] = [] := rfl

@[simp] theorem arrivalTimes_singleton_mk_done
    (σ : SimState) (cu : Option Nat) (sv : String) :
    arrivalTimes [mkLogEntry σ .serviceDone cu sv] = [] := rfl

@[simp] theorem startedCids_singleton_mk_arrival
    (σ : SimState) (cu : Option Nat) (sv : String) :
    startedCids [mkLogEntry σ .arrival cu sv] = [] := rfl

@[simp] theorem startedCids_singleton_mk_start
    (σ : SimState) (cid : Nat) (sv : String) :
    startedCids [mkLogEntry σ .serviceStart (some cid) sv] = [cid] := rfl

@[simp] theorem startedCids_singleton_mk_done
    (σ : SimState) (cu : Option Nat) (sv : String) :
    startedCids [mkLogEntry σ .serviceDone cu sv] = [] := rfl

theorem dispatchOne_core {cfg : Config} {σ σ' : SimState}
    (hc : CoreInv cfg σ) (h : dispatchOne σ = some σ') : CoreInv cfg σ' := by
  obtain ⟨c, rest, i, s, hq, hf, hnow, hia, htl, hN, hq', hw', hcid, hcur,
    hmax, hcs, hcc, htw, hts, hsrv, hins, hlog, hpend, heid⟩ :=
    dispatchOne_some h
  obtain ⟨hgeti, hfree⟩ := findFree_some hf
  have hilt : i < σ.servers.length := by
    by_contra hge
    rw [List.getElem?_eq_none (by omega)] at hgeti
    cases hgeti
  have hqw := hc.qwait
  rw [hq] at hqw
  obtain ⟨w, wt, hwdec⟩ : ∃ w wt, σ.waiting_customers = w :: wt := by
    cases hwc : σ.waiting_customers with
    | nil => rw [hwc] at hqw; simp at hqw
    | cons w wt => exact ⟨w, wt, rfl⟩
  rw [hwdec] at hqw
  simp only [List.map_cons, List.cons.injEq] at hqw
  obtain ⟨hw1, hwt⟩ := hqw
  have herase : eraseKey c.cid σ.waiting_customers = wt := by
    rw [hwdec]; exact eraseKey_cons_self hw1.symm
  have hqsorted := hc.queueSorted
  rw [hq] at hqsorted
  simp only [List.map_cons] at hqsorted
  have hheadlt : ∀ b ∈ rest.map (fun c => c.cid), c.cid < b :=
    (List.pairwise_cons.1 hqsorted).1
  have hccid_wait : c.cid ∈ σ.waiting_customers.map (fun p => p.1) := by
    rw [hwdec]; simp [hw1]
  have hbusy' :
      busyCount σ'.servers = busyCount σ.servers + 1 := by
    rw [hsrv]; exact busyCount_set_busy hgeti hfree rfl
  refine
    { hT := hc.hT
      hIa := by rw [hia, hc.hIa]
      hTl := by rw [htl, hc.hTl]
      hN := by rw [hN, hc.hN]
      hStatic := by
        rw [hsrv,
          @map_set_eq_of_eq σ.servers i s
            (Server.setBusy { s with current_cid := some c.cid } σ.now true)
            hgeti rfl]
        exact hc.hStatic
      sorted := by
        rw [hpend]
        exact insertEvent_pairwise hc.sorted
          (fun x hx => ne_of_lt (hc.eidBound x hx))
      eidBound := by
        rw [hpend, heid]
        intro e he
        rcases mem_insertEvent.1 he with rfl | he
        · exact Nat.lt_succ_self _
        · exact Nat.lt_succ_of_lt (hc.eidBound e he)
      timesGE := by
        rw [hpend, hnow]
        intro e he
        rcases mem_insertEvent.1 he with rfl | he
        · exact le_refl _
        · exact hc.timesGE e he
      stopMem := by rw [hpend]; exact mem_insertEvent.2 (Or.inr hc.stopMem)
      stopUniq := by
        rw [hpend]
        intro e he hk
        rcases mem_insertEvent.1 he with rfl | he
        · exact absurd hk (by simp)
        · exact hc.stopUniq e he hk
      qlen := by rw [hcur, hq']
      qwait := by rw [hq', hw', herase, hwt]
      counts := by
        rw [hcs, hcc, hbusy']
        have := hc.counts
        omega
      svcLen := by
        rw [hins, hbusy']
        simp [hc.svcLen]
      svcOK := by
        intro e he c₂ i₂ htgt
        rw [hpend] at he
        rw [hsrv, hins]
        rcases mem_insertEvent.1 he with rfl | he
        · have hci : c.cid = c₂ ∧ i = i₂ := by simpa [svcTarget] using htgt
          obtain ⟨rfl, rfl⟩ := hci
          refine ⟨_, List.getElem?_set_self hilt, rfl, rfl, ?_⟩
          simp
        · obtain ⟨s₂, hs₂, hb₂, hcc₂, hmem₂⟩ := hc.svcOK e he c₂ i₂ htgt
          have hne : i ≠ i₂ := by
            intro hEq
            rw [← hEq, hgeti] at hs₂
            injection hs₂ with hs₂
            rw [← hs₂] at hb₂
            rw [hfree] at hb₂
            cases hb₂
          refine ⟨s₂, ?_, hb₂, hcc₂, ?_⟩
          · rw [List.getElem?_set_ne hne]; exact hs₂
          · simp [hmem₂]
      svcNodup := by
        intro e he e' he' c₂ i₂ c₃ i₃ ht₂ ht₃ hne
        rw [hpend] at he he'
        rcases mem_insertEvent.1 he with rfl | he <;>
          rcases mem_insertEvent.1 he' with rfl | he'
        · exact absurd rfl hne
        · have hci : c.cid = c₂ ∧ i = i₂ := by simpa [svcTarget] using ht₂
          obtain ⟨rfl, rfl⟩ := hci
          obtain ⟨s₃, hs₃, hb₃, _, hmem₃⟩ := hc.svcOK e' he' c₃ i₃ ht₃
          constructor
          · intro hEq
            rw [← hEq, hgeti] at hs₃
            injection hs₃ with hs₃
            rw [← hs₃] at hb₃
            rw [hfree] at hb₃
            cases hb₃
          · intro hEq
            exact hc.waitDisj c.cid hccid_wait (hEq ▸ hmem₃)
        · have hci : c.cid = c₃ ∧ i = i₃ := by simpa [svcTarget] using ht₃
          obtain ⟨rfl, rfl⟩ := hci
          obtain ⟨s₂, hs₂, hb₂, _, hmem₂⟩ := hc.svcOK e he c₂ i₂ ht₂
          constructor
          · intro hEq
            rw [hEq, hgeti] at hs₂
            injection hs₂ with hs₂
            rw [← hs₂] at hb₂
            rw [hfree] at hb₂
            cases hb₂
          · intro hEq
            exact hc.waitDisj c.cid hccid_wait (hEq ▸ hmem₂)
        · exact hc.svcNodup e he e' he' _ _ _ _ ht₂ ht₃ hne
      busyHasSvc := by
        intro j sj hsj hbj
        rw [hsrv] at hsj
        rw [hpend]
        by_cases hji : i = j
        · subst hji
          exact ⟨_, mem_insertEvent.2 (Or.inl rfl), c.cid, rfl⟩
        · rw [List.getElem?_set_ne hji] at hsj
          obtain ⟨e, he, c₃, ht⟩ := hc.busyHasSvc j sj hsj hbj
          exact ⟨e, mem_insertEvent.2 (Or.inr he), c₃, ht⟩
      waitDisj := by
        rw [hw', herase, hins]
        intro x hx
        have hxold : x ∈ σ.waiting_customers.map (fun p => p.1) := by
          rw [hwdec]; simp; right; simpa using hx
        have hxnot := hc.waitDisj x hxold
        have hndwt : c.cid ∉ wt.map (fun p => p.1) := by
          rw [← hwt]
          intro hmem
          exact absurd (hheadlt _ hmem) (lt_irrefl _)
        simp only [List.map_append, List.map_cons, List.map_nil,
          List.mem_append, List.mem_cons, List.not_mem_nil, or_false]
        rintro (hmem | hEq)
        · exact hxnot hmem
        · exact hndwt (hEq ▸ hx)
      waitBound := by
        rw [hw', herase, hcid]
        intro x hx
        refine hc.waitBound x ?_
        rw [hwdec]; simp; right; simpa using hx
      svcBound := by
        rw [hins, hcid]
        intro x hx
        simp only [List.map_append, List.map_cons, List.map_nil,
          List.mem_append, List.mem_cons, List.not_mem_nil, or_false] at hx
        rcases hx with hx | rfl
        · exact hc.svcBound x hx
        · exact hc.waitBound _ hccid_wait
      startedBound := by
        rw [hlog, hcid, startedCids_append]
        intro x hx
        simp only [startedCids_singleton_start, List.mem_append,
          List.mem_cons, List.not_mem_nil, or_false] at hx
        rcases hx with hx | rfl
        · exact hc.startedBound x hx
        · exact hc.waitBound _ hccid_wait
      queueSorted := by
        rw [hq']
        exact (List.pairwise_cons.1 hqsorted).2
      startedSorted := by
        rw [hlog, startedCids_append, startedCids_singleton_start]
        refine List.pairwise_append.2 ⟨hc.startedSorted, by simp, ?_⟩
        intro a ha b hb
        simp only [List.mem_cons, List.not_mem_nil, or_false] at hb
        subst hb
        exact hc.queueAfterStarted a ha c.cid (by rw [hq]; simp)
      queueAfterStarted := by
        rw [hlog, hq', startedCids_append, startedCids_singleton_start]
        intro a ha b hb
        simp only [List.mem_append, List.mem_cons, List.not_mem_nil,
          or_false] at ha
        rcases ha with ha | rfl
        · refine hc.queueAfterStarted a ha b ?_
          rw [hq]
          simp only [List.map_cons, List.mem_cons]
          exact Or.inr hb
        · exact hheadlt b hb
      logTimesMono := by
        rw [hlog, List.map_append]
        refine List.pairwise_append.2 ⟨hc.logTimesMono, by simp, ?_⟩
        intro a ha b hb
        simp only [List.map_cons, List.map_nil, List.mem_cons,
          List.not_mem_nil, or_false] at hb
        subst hb
        obtain ⟨e, he, rfl⟩ := List.mem_map.1 ha
        exact hc.logTimesLE e he
      logTimesLE := by
        rw [hlog, hnow]
        intro e he
        rcases List.mem_append.1 he with he | he
        · exact hc.logTimesLE e he
        · simp only [List.mem_cons, List.not_mem_nil, or_false] at he
          subst he
          exact le_refl _
      logGhost := by
        rw [hlog]
        intro e he
        rcases List.mem_append.1 he with he | he
        · exact hc.logGhost e he
        · simp only [List.mem_cons, List.not_mem_nil, or_false] at he
          subst he
          exact ⟨rfl, serversAvailable_eq_freeCount _⟩
      waitCount := by
        rw [hcid, hw', herase, hcs]
        have := hc.waitCount
        rw [hwdec] at this
        simp only [List.length_cons] at this
        omega }

theorem dispatchOne_arr {cfg : Config} {σ σ' : SimState}
    (ha : ArrClause cfg σ) (h : dispatchOne σ = some σ') : ArrClause cfg σ' := by
  obtain ⟨c, rest, i, s, hq, hf, hnow, hia, htl, hN, hq', hw', hcid, hcur,
    hmax, hcs, hcc, htw, hts, hsrv, hins, hlog, hpend, heid⟩ :=
    dispatchOne_some h
  obtain ⟨k, hk1, hk2, hk3, e0, he0, huniq, hcase⟩ := ha
  refine ⟨k, by rw [hcid, hk1], ?_, ?_, e0, ?_, ?_, hcase⟩
  · rw [hlog, arrivalTimes_append, arrivalTimes_singleton_start, hk2]
    simp
  · rw [hlog, arrivalTimes_append, arrivalTimes_singleton_start]
    simpa using hk3
  · rw [hpend]
    exact mem_insertEvent.2 (Or.inr he0)
  · rw [hpend]
    intro e' he' harr
    rcases mem_insertEvent.1 he' with rfl | he'
    · simp [isArrivalEv] at harr
    · exact huniq e' he' harr

theorem dispatchOne_noArr {σ σ' : SimState}
    (h : dispatchOne σ = some σ')
    (hno : ∀ e ∈ σ.pending, isArrivalEv e = false) :
    ∀ e ∈ σ'.pending, isArrivalEv e = false := by
  obtain ⟨c, rest, i, s, hq, hf, hnow, hia, htl, hN, hq', hw', hcid, hcur,
    hmax, hcs, hcc, htw, hts, hsrv, hins, hlog, hpend, heid⟩ :=
    dispatchOne_some h
  rw [hpend]
  intro e he
  rcases mem_insertEvent.1 he with rfl | he
  · simp [isArrivalEv]
  · exact hno e he

theorem tryDispatch_core {cfg : Config} {σ : SimState} (hc : CoreInv cfg σ) :
    CoreInv cfg (tryDispatch σ) := by
  obtain ⟨n, hn⟩ : ∃ n, σ.queue.length ≤ n := ⟨σ.queue.length, le_refl _⟩
  induction n generalizing σ with
  | zero =>
    have hq : σ.queue = [] := List.length_eq_zero.1 (Nat.le_zero.1 hn)
    rw [tryDispatch_unfold, dispatchOne_nil hq]
    exact hc
  | succ n ih =>
    rw [tryDispatch_unfold]
    cases hd : dispatchOne σ with
    | none => exact hc
    | some σ' =>
      have := dispatchOne_queue_length hd
      exact ih (dispatchOne_core hc hd) (by omega)

theorem tryDispatch_arr {cfg : Config} {σ : SimState} (ha : ArrClause cfg σ) :
    ArrClause cfg (tryDispatch σ) := by
  obtain ⟨n, hn⟩ : ∃ n, σ.queue.length ≤ n := ⟨σ.queue.length, le_refl _⟩
  induction n generalizing σ with
  | zero =>
    have hq : σ.queue = [] := List.length_eq_zero.1 (Nat.le_zero.1 hn)
    rw [tryDispatch_unfold, dispatchOne_nil hq]
    exact ha
  | succ n ih =>
    rw [tryDispatch_unfold]
    cases hd : dispatchOne σ with
    | none => exact ha
    | some σ' =>
      have := dispatchOne_queue_length hd
      exact ih (dispatchOne_arr ha hd) (by omega)

theorem tryDispatch_noArr {σ : SimState}
    (hno : ∀ e ∈ σ.pending, isArrivalEv e = false) :
    ∀ e ∈ (tryDispatch σ).pending, isArrivalEv e = false := by
  obtain ⟨n, hn⟩ : ∃ n, σ.queue.length ≤ n := ⟨σ.queue.length, le_refl _⟩
  induction n generalizing σ with
  | zero =>
    have hq : σ.queue = [] := List.length_eq_zero.1 (Nat.le_zero.1 hn)
    rw [tryDispatch_unfold, dispatchOne_nil hq]
    exact hno
  | succ n ih =>
    rw [tryDispatch_unfold]
    cases hd : dispatchOne σ with
    | none => exact hno
    | some σ' =>
      have := dispatchOne_queue_length hd
      exact ih (dispatchOne_noArr hd hno) (by omega)

theorem tryDispatch_proj (σ : SimState) :
    (tryDispatch σ).now = σ.now ∧
    (tryDispatch σ).interarrival_time = σ.interarrival_time ∧
    (tryDispatch σ).time_limit = σ.time_limit ∧
    (tryDispatch σ).next_cid = σ.next_cid ∧
    (tryDispatch σ).nServers = σ.nServers ∧
    (tryDispatch σ).count_completed = σ.count_completed ∧
    (tryDispatch σ).total_service_time_completed =
      σ.total_service_time_completed := by
  obtain ⟨n, hn⟩ : ∃ n, σ.queue.length ≤ n := ⟨σ.queue.length, le_refl _⟩
  induction n generalizing σ with
  | zero =>
    have hq : σ.queue = [] := List.length_eq_zero.1 (Nat.le_zero.1 hn)
    rw [tryDispatch_unfold, dispatchOne_nil hq]
    simp
  | succ n ih =>
    rw [tryDispatch_unfold]
    cases hd : dispatchOne σ with
    | none => simp
    | some σ' =>
      have hlen := dispatchOne_queue_length hd
      obtain ⟨c, rest, i, s, hq, hf, hnow, hia, htl, hN, hq', hw', hcid, hcur,
        hmax, hcs, hcc, htw, hts, hsrv, hins, hlog, hpend, heid⟩ :=
        dispatchOne_some hd
      have := ih σ' (by omega)
      rw [this.1, this.2.1, this.2.2.1, this.2.2.2.1, this.2.2.2.2.1,
        this.2.2.2.2.2.1, this.2.2.2.2.2.2]
      exact ⟨hnow, hia, htl, hcid, hN, hcc, hts⟩

theorem keyLt_irrefl (a : PEvent) : ¬ keyLt a a := by
  unfold keyLt
  simp

theorem head_not_mem_tail {e : PEvent} {rest : List PEvent}
    (h : (e :: rest).Pairwise keyLt) : e ∉ rest := by
  intro hmem
  exact keyLt_irrefl e ((List.pairwise_cons.1 h).1 e hmem)

theorem tryDispatch_arrivalTimes (σ : SimState) :
    arrivalTimes (tryDispatch σ).eventLog = arrivalTimes σ.eventLog := by
  obtain ⟨n, hn⟩ : ∃ n, σ.queue.length ≤ n := ⟨σ.queue.length, le_refl _⟩
  induction n generalizing σ with
  | zero =>
    have hq : σ.queue = [] := List.length_eq_zero.1 (Nat.le_zero.1 hn)
    rw [tryDispatch_unfold, dispatchOne_nil hq]
  | succ n ih =>
    rw [tryDispatch_unfold]
    cases hd : dispatchOne σ with
    | none => rfl
    | some σ' =>
      have hlen := dispatchOne_queue_length hd
      obtain ⟨c, rest, i, s, hq, hf, hnow, hia, htl, hN, hq', hw', hcid, hcur,
        hmax, hcs, hcc, htw, hts, hsrv, hins, hlog, hpend, heid⟩ :=
        dispatchOne_some hd
      rw [ih σ' (by omega), hlog, arrivalTimes_append,
        arrivalTimes_singleton_start]
      simp

theorem handleServiceInit_ok {σ : SimState} {c i : Nat} {σ' : SimState}
    (h : handleServiceInit σ c i = .ok σ') :
    ∃ s, σ.servers[i]? = some s ∧ ¬ s.service_time < 0 ∧
      σ' = schedule σ (σ.now + s.service_time) 1
        (.serviceDone c i s.service_time) := by
  cases hg : σ.servers[i]? with
  | none => simp [handleServiceInit, hg] at h
  | some s =>
    simp only [handleServiceInit, hg, timeoutSched] at h
    split at h
    · cases h
    · rename_i hneg
      simp only [Except.ok.injEq] at h
      exact ⟨s, rfl, hneg, h.symm⟩

theorem handleServiceDone_ok {σ : SimState} {c i : Nat} {st : ℚ}
    {σ' : SimState} (h : handleServiceDone σ c i st = .ok σ') :
    ∃ s, σ.servers[i]? = some s ∧
      σ' = tryDispatch (logEvent
        { σ with
          total_service_time_completed :=
            σ.total_service_time_completed + st,
          count_completed := σ.count_completed + 1,
          servers := σ.servers.set i
            { Server.setBusy s σ.now false with current_cid := none },
          in_service := eraseKey c σ.in_service }
        .serviceDone (some c) s.name) := by
  cases hg : σ.servers[i]? with
  | none => simp [handleServiceDone, hg] at h
  | some s =>
    simp only [handleServiceDone, hg, Except.ok.injEq] at h
    exact ⟨s, rfl, h.symm⟩

theorem handleArrival_ok {σ σ' : SimState}
    (h : handleArrival σ = .ok σ') :
    (σ.time_limit < σ.now ∧ σ' = σ) ∨
    (¬ σ.time_limit < σ.now ∧
      ∃ σ4, σ4 = tryDispatch (logEvent
          (setQLen
            { σ with
              next_cid := σ.next_cid + 1,
              queue := σ.queue ++ [{ cid := σ.next_cid, arrival_time := σ.now }],
              waiting_customers := σ.waiting_customers ++
                [(σ.next_cid, { cid := σ.next_cid, arrival_time := σ.now })] }
            (σ.queue ++
              [({ cid := σ.next_cid, arrival_time := σ.now } :
                Customer)]).length)
          .arrival (some σ.next_cid) "") ∧
        ((σ4.time_limit < σ4.now + σ4.interarrival_time ∧
            ¬ σ4.time_limit - σ4.now < 0 ∧
            σ' = schedule σ4 (σ4.now + (σ4.time_limit - σ4.now)) 1
              .arrivalFinal) ∨
         (¬ σ4.time_limit < σ4.now + σ4.interarrival_time ∧
            ¬ σ4.interarrival_time < 0 ∧
            σ' = schedule σ4 (σ4.now + σ4.interarrival_time) 1
              .arrivalLoop))) := by
  by_cases h0 : σ.time_limit < σ.now
  · left
    refine ⟨h0, ?_⟩
    simp only [handleArrival, if_pos h0, Except.ok.injEq] at h
    exact h.symm
  · right
    refine ⟨h0, ?_⟩
    simp only [handleArrival, if_neg h0] at h
    refine ⟨_, rfl, ?_⟩
    split at h
    · rename_i hcond
      left
      simp only [timeoutSched] at h
      split at h
      · cases h
      · rename_i hneg
        simp only [Except.ok.injEq] at h
        exact ⟨hcond, hneg, h.symm⟩
    · rename_i hcond
      right
      simp only [timeoutSched] at h
      split at h
      · cases h
      · rename_i hneg
        simp only [Except.ok.injEq] at h
        exact ⟨hcond, hneg, h.symm⟩

theorem preserve_serviceInit {cfg : Config} {σ : SimState} {e : PEvent}
    {rest : List PEvent} {c i : Nat} {σ' : SimState} (hi : SimInv cfg σ)
    (hp : σ.pending = e :: rest) (hk : e.kind = EKind.serviceInit c i)
    (h : handleServiceInit { σ with now := e.time, pending := rest } c i =
      .ok σ') : SimInv cfg σ' := by
  obtain ⟨s, hg, hst, hsch⟩ := handleServiceInit_ok h
  have hg' : σ.servers[i]? = some s := hg
  subst hsch
  have hmemE : e ∈ σ.pending := by rw [hp]; simp
  have hsorted := hi.sorted
  rw [hp] at hsorted
  have hlt : ∀ x ∈ rest, keyLt e x := (List.pairwise_cons.1 hsorted).1
  have hrest_sorted : rest.Pairwise keyLt := (List.pairwise_cons.1 hsorted).2
  have hnotmem : e ∉ rest := head_not_mem_tail hsorted
  have htgt : svcTarget e.kind = some (c, i) := by rw [hk]; rfl
  obtain ⟨sOK, hgOK, hbusy, hcur, hmemsvc⟩ := hi.svcOK e hmemE c i htgt
  have hsEq : s = sOK := by
    rw [hg'] at hgOK
    exact Option.some.inj hgOK
  subst hsEq
  have heidrest : ∀ x ∈ rest, x.eid < σ.next_eid := fun x hx =>
    hi.eidBound x (by rw [hp]; exact List.mem_cons_of_mem _ hx)
  have hstop : stopEventOf cfg ∈ rest := by
    have := hi.stopMem
    rw [hp] at this
    rcases List.mem_cons.1 this with hEq | hmem
    · rw [← hEq] at hk; cases hk
    · exact hmem
  have hnowle : σ.now ≤ e.time := hi.timesGE e hmemE
  refine
    { hT := hi.hT
      hIa := hi.hIa
      hTl := hi.hTl
      hN := hi.hN
      hStatic := hi.hStatic
      sorted := by
        show (insertEvent ⟨e.time + s.service_time, 1, σ.next_eid,
          EKind.serviceDone c i s.service_time⟩ rest).Pairwise keyLt
        exact insertEvent_pairwise hrest_sorted
          (fun x hx => ne_of_lt (heidrest x hx))
      eidBound := by
        show ∀ x ∈ insertEvent _ rest, x.eid < σ.next_eid + 1
        intro x hx
        rcases mem_insertEvent.1 hx with rfl | hx
        · exact Nat.lt_succ_self _
        · exact Nat.lt_succ_of_lt (heidrest x hx)
      timesGE := by
        show ∀ x ∈ insertEvent _ rest, e.time ≤ x.time
        intro x hx
        rcases mem_insertEvent.1 hx with rfl | hx
        · show e.time ≤ e.time + s.service_time
          have : ¬ s.service_time < 0 := hst
          linarith [this]
        · exact keyLt_time_le (hlt x hx)
      stopMem := by
        show stopEventOf cfg ∈ insertEvent _ rest
        exact mem_insertEvent.2 (Or.inr hstop)
      stopUniq := by
        show ∀ x ∈ insertEvent _ rest, x.kind = EKind.stopEvent → _
        intro x hx hxk
        rcases mem_insertEvent.1 hx with rfl | hx
        · cases hxk
        · exact hi.stopUniq x (by rw [hp]; exact List.mem_cons_of_mem _ hx) hxk
      qlen := hi.qlen
      qwait := hi.qwait
      counts := hi.counts
      svcLen := hi.svcLen
      svcOK := by
        show ∀ x ∈ insertEvent _ rest, _
        intro x hx c₂ i₂ ht₂
        rcases mem_insertEvent.1 hx with rfl | hx
        · have hci : c = c₂ ∧ i = i₂ := by simpa [svcTarget] using ht₂
          obtain ⟨rfl, rfl⟩ := hci
          exact ⟨s, hg', hbusy, hcur, hmemsvc⟩
        · exact hi.svcOK x (by rw [hp]; exact List.mem_cons_of_mem _ hx) c₂ i₂ ht₂
      svcNodup := by
        show ∀ x ∈ insertEvent _ rest, ∀ x' ∈ insertEvent _ rest, _
        intro x hx x' hx' c₂ i₂ c₃ i₃ ht₂ ht₃ hne
        rcases mem_insertEvent.1 hx with rfl | hx <;>
          rcases mem_insertEvent.1 hx' with rfl | hx'
        · exact absurd rfl hne
        · have hci : c = c₂ ∧ i = i₂ := by simpa [svcTarget] using ht₂
          obtain ⟨rfl, rfl⟩ := hci
          exact hi.svcNodup e hmemE x' (by rw [hp]; exact List.mem_cons_of_mem _ hx') _ _ _ _
            htgt ht₃ (fun hEq => hnotmem (hEq ▸ hx'))
        · have hci : c = c₃ ∧ i = i₃ := by simpa [svcTarget] using ht₃
          obtain ⟨rfl, rfl⟩ := hci
          exact hi.svcNodup x (by rw [hp]; exact List.mem_cons_of_mem _ hx) e hmemE _ _ _ _
            ht₂ htgt (fun hEq => hnotmem (hEq ▸ hx))
        · exact hi.svcNodup x (by rw [hp]; exact List.mem_cons_of_mem _ hx) x'
            (by rw [hp]; exact List.mem_cons_of_mem _ hx') c₂ i₂ c₃ i₃ ht₂ ht₃ hne
      busyHasSvc := by
        intro j sj hsj hbj
        obtain ⟨x, hx, c₃, ht₃⟩ := hi.busyHasSvc j sj hsj hbj
        rw [hp] at hx
        rcases List.mem_cons.1 hx with rfl | hx
        · rw [htgt] at ht₃
          injection ht₃ with ht₃
          injection ht₃ with h1 h2
          subst h1
          subst h2
          exact ⟨_, mem_insertEvent.2 (Or.inl rfl), c, rfl⟩
        · exact ⟨x, mem_insertEvent.2 (Or.inr hx), c₃, ht₃⟩
      waitDisj := hi.waitDisj
      waitBound := hi.waitBound
      svcBound := hi.svcBound
      startedBound := hi.startedBound
      queueSorted := hi.queueSorted
      startedSorted := hi.startedSorted
      queueAfterStarted := hi.queueAfterStarted
      logTimesMono := hi.logTimesMono
      logTimesLE := by
        show ∀ x ∈ σ.eventLog, x.time ≤ e.time
        intro x hx
        exact le_trans (hi.logTimesLE x hx) hnowle
      logGhost := hi.logGhost
      waitCount := hi.waitCount
      arr := ?_ }
  obtain ⟨k, hk1, hk2, hk3, e0, he0, huniq, hcase⟩ := hi.arr
  have he0arr : isArrivalEv e0 = true := by
    rcases hcase with ⟨hk0, _⟩ | ⟨hk0, _⟩ <;> simp [isArrivalEv, hk0]
  have he0rest : e0 ∈ rest := by
    rw [hp] at he0
    rcases List.mem_cons.1 he0 with rfl | hmem
    · simp [isArrivalEv, hk] at he0arr
    · exact hmem
  refine ⟨k, hk1, hk2, hk3, e0, mem_insertEvent.2 (Or.inr he0rest), ?_, hcase⟩
  intro x hx hxarr
  rcases mem_insertEvent.1 hx with rfl | hx
  · simp [isArrivalEv] at hxarr
  · exact huniq x (by rw [hp]; exact List.mem_cons_of_mem _ hx) hxarr

theorem preserve_serviceDone {cfg : Config} {σ : SimState} {e : PEvent}
    {rest : List PEvent} {c i : Nat} {st : ℚ} {σ' : SimState}
    (hi : SimInv cfg σ) (hp : σ.pending = e :: rest)
    (hk : e.kind = EKind.serviceDone c i st)
    (h : handleServiceDone { σ with now := e.time, pending := rest } c i st =
      .ok σ') : SimInv cfg σ' := by
  obtain ⟨s, hg, hσ'⟩ := handleServiceDone_ok h
  have hg' : σ.servers[i]? = some s := hg
  subst hσ'
  have hmemE : e ∈ σ.pending := by rw [hp]; simp
  have hsorted := hi.sorted
  rw [hp] at hsorted
  have hlt : ∀ x ∈ rest, keyLt e x := (List.pairwise_cons.1 hsorted).1
  have hrest_sorted : rest.Pairwise keyLt := (List.pairwise_cons.1 hsorted).2
  have hnotmem : e ∉ rest := head_not_mem_tail hsorted
  have htgt : svcTarget e.kind = some (c, i) := by rw [hk]; rfl
  obtain ⟨sOK, hgOK, hbusy, hcur, hmemsvc⟩ := hi.svcOK e hmemE c i htgt
  have hsEq : s = sOK := by
    rw [hg'] at hgOK
    exact Option.some.inj hgOK
  subst hsEq
  have hilt : i < σ.servers.length := by
    by_contra hge
    rw [List.getElem?_eq_none (by omega)] at hg'
    cases hg'
  have heidrest : ∀ x ∈ rest, x.eid < σ.next_eid := fun x hx =>
    hi.eidBound x (by rw [hp]; exact List.mem_cons_of_mem _ hx)
  have hstop : stopEventOf cfg ∈ rest := by
    have := hi.stopMem
    rw [hp] at this
    rcases List.mem_cons.1 this with hEq | hmem
    · rw [← hEq] at hk; cases hk
    · exact hmem
  have hnowle : σ.now ≤ e.time := hi.timesGE e hmemE
  have hbc : busyCount σ.servers =
      busyCount (σ.servers.set i
        { Server.setBusy s e.time false with current_cid := none }) + 1 :=
    busyCount_set_free hg' hbusy rfl
  have hsvclen : (eraseKey c σ.in_service).length + 1 =
      σ.in_service.length := length_eraseKey_of_mem hmemsvc
  refine
    { toCoreInv := tryDispatch_core ?_
      arr := tryDispatch_arr ?_ }
  · refine
      { hT := hi.hT
        hIa := hi.hIa
        hTl := hi.hTl
        hN := hi.hN
        hStatic := by
          show (σ.servers.set i
            { Server.setBusy s e.time false with current_cid := none }).map
              (fun s => (s.name, s.service_time)) = cfg.servers
          rw [@map_set_eq_of_eq σ.servers i s
            { Server.setBusy s e.time false with current_cid := none }
            hg' rfl]
          exact hi.hStatic
        sorted := hrest_sorted
        eidBound := heidrest
        timesGE := fun x hx => keyLt_time_le (hlt x hx)
        stopMem := hstop
        stopUniq := fun x hx hxk =>
          hi.stopUniq x (by rw [hp]; exact List.mem_cons_of_mem _ hx) hxk
        qlen := hi.qlen
        qwait := hi.qwait
        counts := by
          show σ.count_started = σ.count_completed + 1 +
            busyCount (σ.servers.set i
              { Server.setBusy s e.time false with current_cid := none })
          have := hi.counts
          omega
        svcLen := by
          show (eraseKey c σ.in_service).length =
            busyCount (σ.servers.set i
              { Server.setBusy s e.time false with current_cid := none })
          have := hi.svcLen
          omega
        svcOK := by
          intro x hx c₂ i₂ ht₂
          obtain ⟨s₂, hs₂, hb₂, hcc₂, hmem₂⟩ :=
            hi.svcOK x (by rw [hp]; exact List.mem_cons_of_mem _ hx) c₂ i₂ ht₂
          obtain ⟨hne_i, hne_c⟩ :=
            hi.svcNodup e hmemE x (by rw [hp]; exact List.mem_cons_of_mem _ hx) _ _ _ _ htgt ht₂
              (fun hEq => hnotmem (hEq ▸ hx))
          refine ⟨s₂, ?_, hb₂, hcc₂, ?_⟩
          · show (σ.servers.set i _)[i₂]? = some s₂
            rw [List.getElem?_set_ne hne_i]
            exact hs₂
          · show c₂ ∈ (eraseKey c σ.in_service).map (fun p => p.1)
            exact mem_map_fst_eraseKey hmem₂ (fun hEq => hne_c hEq.symm)
        svcNodup := fun x hx x' hx' c₂ i₂ c₃ i₃ ht₂ ht₃ hne =>
          hi.svcNodup x (by rw [hp]; exact List.mem_cons_of_mem _ hx) x' (by rw [hp]; exact List.mem_cons_of_mem _ hx')
            c₂ i₂ c₃ i₃ ht₂ ht₃ hne
        busyHasSvc := by
          intro j sj hsj hbj
          have hsj' : (σ.servers.set i
            { Server.setBusy s e.time false with current_cid := none })[j]? =
              some sj := hsj
          by_cases hji : i = j
          · subst hji
            rw [List.getElem?_set_self hilt] at hsj'
            injection hsj' with hsj'
            rw [← hsj'] at hbj
            cases hbj
          · rw [List.getElem?_set_ne hji] at hsj'
            obtain ⟨x, hx, c₃, ht₃⟩ := hi.busyHasSvc j sj hsj' hbj
            rw [hp] at hx
            rcases List.mem_cons.1 hx with rfl | hx
            · rw [htgt] at ht₃
              injection ht₃ with ht₃
              injection ht₃ with h1 h2
              exact absurd h2 hji
            · exact ⟨x, hx, c₃, ht₃⟩
        waitDisj := by
          intro x hx hmem
          exact hi.waitDisj x hx (map_fst_eraseKey_sub hmem)
        waitBound := hi.waitBound
        svcBound := fun x hx => hi.svcBound x (map_fst_eraseKey_sub hx)
        startedBound := by
          show ∀ x ∈ startedCids (σ.eventLog ++ [_]), x < σ.next_cid
          rw [startedCids_append]
          intro x hx
          rcases List.mem_append.1 hx with hx | hx
          · exact hi.startedBound x hx
          · simp at hx
        queueSorted := hi.queueSorted
        startedSorted := by
          show (startedCids (σ.eventLog ++ [_])).Pairwise (· < ·)
          rw [startedCids_append]
          simpa using hi.startedSorted
        queueAfterStarted := by
          show ∀ a ∈ startedCids (σ.eventLog ++ [_]), _
          rw [startedCids_append]
          intro a ha b hb
          rcases List.mem_append.1 ha with ha | ha
          · exact hi.queueAfterStarted a ha b hb
          · simp at ha
        logTimesMono := by
          show ((σ.eventLog ++ [_]).map
            (fun x : LogEntry => x.time)).Pairwise (· ≤ ·)
          rw [List.map_append]
          refine List.pairwise_append.2 ⟨hi.logTimesMono, by simp, ?_⟩
          intro a ha b hb
          simp only [List.map_cons, List.map_nil, List.mem_cons,
            List.not_mem_nil, or_false] at hb
          subst hb
          obtain ⟨x, hx, rfl⟩ := List.mem_map.1 ha
          exact le_trans (hi.logTimesLE x hx) hnowle
        logTimesLE := by
          show ∀ x ∈ σ.eventLog ++ [_], x.time ≤ e.time
          intro x hx
          rcases List.mem_append.1 hx with hx | hx
          · exact le_trans (hi.logTimesLE x hx) hnowle
          · simp only [List.mem_cons, List.not_mem_nil, or_false] at hx
            subst hx
            exact le_refl _
        logGhost := by
          show ∀ x ∈ σ.eventLog ++ [_], _
          intro x hx
          rcases List.mem_append.1 hx with hx | hx
          · exact hi.logGhost x hx
          · simp only [List.mem_cons, List.not_mem_nil, or_false] at hx
            subst hx
            exact ⟨hi.qlen, serversAvailable_eq_freeCount _⟩
        waitCount := hi.waitCount }
  · obtain ⟨k, hk1, hk2, hk3, e0, he0, huniq, hcase⟩ := hi.arr
    have he0arr : isArrivalEv e0 = true := by
      rcases hcase with ⟨hk0, _⟩ | ⟨hk0, _⟩ <;> simp [isArrivalEv, hk0]
    have he0rest : e0 ∈ rest := by
      rw [hp] at he0
      rcases List.mem_cons.1 he0 with rfl | hmem
      · simp [isArrivalEv, hk] at he0arr
      · exact hmem
    refine ⟨k, hk1, ?_, ?_, e0, he0rest, ?_, hcase⟩
    · show arrivalTimes (σ.eventLog ++ [_]) = _
      rw [arrivalTimes_append]
      simpa using hk2
    · show ∀ t ∈ arrivalTimes (σ.eventLog ++ [_]), t < cfg.timeLimit
      rw [arrivalTimes_append]
      intro t ht
      rcases List.mem_append.1 ht with ht | ht
      · exact hk3 t ht
      · simp at ht
    · intro x hx hxarr
      exact huniq x (by rw [hp]; exact List.mem_cons_of_mem _ hx) hxarr

theorem schedule_core {cfg : Config} {σ : SimState} (hc : CoreInv cfg σ)
    {t : ℚ} {p : Nat} {k : EKind} (ht : σ.now ≤ t)
    (hsvc : svcTarget k = none) (hks : k ≠ EKind.stopEvent) :
    CoreInv cfg (schedule σ t p k) := by
  refine
    { hT := hc.hT
      hIa := hc.hIa
      hTl := hc.hTl
      hN := hc.hN
      hStatic := hc.hStatic
      sorted := ?_
      eidBound := ?_
      timesGE := ?_
      stopMem := ?_
      stopUniq := ?_
      qlen := hc.qlen
      qwait := hc.qwait
      counts := hc.counts
      svcLen := hc.svcLen
      svcOK := ?_
      svcNodup := ?_
      busyHasSvc := ?_
      waitDisj := hc.waitDisj
      waitBound := hc.waitBound
      svcBound := hc.svcBound
      startedBound := hc.startedBound
      queueSorted := hc.queueSorted
      startedSorted := hc.startedSorted
      queueAfterStarted := hc.queueAfterStarted
      logTimesMono := hc.logTimesMono
      logTimesLE := hc.logTimesLE
      logGhost := hc.logGhost
      waitCount := hc.waitCount }
  · show (insertEvent ⟨t, p, σ.next_eid, k⟩ σ.pending).Pairwise keyLt
    exact insertEvent_pairwise hc.sorted
      (fun x hx => ne_of_lt (hc.eidBound x hx))
  · show ∀ x ∈ insertEvent _ σ.pending, x.eid < σ.next_eid + 1
    intro x hx
    rcases mem_insertEvent.1 hx with rfl | hx
    · exact Nat.lt_succ_self _
    · exact Nat.lt_succ_of_lt (hc.eidBound x hx)
  · show ∀ x ∈ insertEvent _ σ.pending, σ.now ≤ x.time
    intro x hx
    rcases mem_insertEvent.1 hx with rfl | hx
    · exact ht
    · exact hc.timesGE x hx
  · exact mem_insertEvent.2 (Or.inr hc.stopMem)
  · show ∀ x ∈ insertEvent _ σ.pending, _
    intro x hx hxk
    rcases mem_insertEvent.1 hx with rfl | hx
    · exact absurd hxk hks
    · exact hc.stopUniq x hx hxk
  · show ∀ x ∈ insertEvent _ σ.pending, _
    intro x hx c₂ i₂ ht₂
    rcases mem_insertEvent.1 hx with rfl | hx
    · rw [hsvc] at ht₂; cases ht₂
    · exact hc.svcOK x hx c₂ i₂ ht₂
  · show ∀ x ∈ insertEvent _ σ.pending, ∀ x' ∈ insertEvent _ σ.pending, _
    intro x hx x' hx' c₂ i₂ c₃ i₃ ht₂ ht₃ hne
    rcases mem_insertEvent.1 hx with rfl | hx
    · rw [hsvc] at ht₂; cases ht₂
    rcases mem_insertEvent.1 hx' with rfl | hx'
    · rw [hsvc] at ht₃; cases ht₃
    exact hc.svcNodup x hx x' hx' c₂ i₂ c₃ i₃ ht₂ ht₃ hne
  · intro j sj hsj hbj
    obtain ⟨x, hx, c₃, ht₃⟩ := hc.busyHasSvc j sj hsj hbj
    exact ⟨x, mem_insertEvent.2 (Or.inr hx), c₃, ht₃⟩

theorem arrivalFinal_not_head {cfg : Config} {σ : SimState} {e : PEvent}
    {rest : List PEvent} (hi : SimInv cfg σ) (hp : σ.pending = e :: rest)
    (hk : e.kind = EKind.arrivalFinal) : False := by
  obtain ⟨k, hk1, hk2, hk3, e0, he0, huniq, hcase⟩ := hi.arr
  have he : e = e0 := by
    refine huniq e (by rw [hp]; simp) ?_
    simp [isArrivalEv, hk]
  subst he
  rcases hcase with ⟨hk0, _⟩ | ⟨hk0, htime, hpri, _⟩
  · rw [hk] at hk0; cases hk0
  · have hsorted := hi.sorted
    rw [hp] at hsorted
    have hstop : stopEventOf cfg ∈ rest := by
      have := hi.stopMem
      rw [hp] at this
      rcases List.mem_cons.1 this with hEq | hmem
      · rw [← hEq] at hk; cases hk
      · exact hmem
    have hklt := (List.pairwise_cons.1 hsorted).1 _ hstop
    rcases hklt with hlt | ⟨hteq, hlt | ⟨hpeq, _⟩⟩
    · rw [htime] at hlt
      exact absurd hlt (lt_irrefl _)
    · rw [hpri] at hlt
      simp [stopEventOf] at hlt
    · rw [hpri] at hpeq
      simp [stopEventOf] at hpeq


theorem preserve_arrivalLoop {cfg : Config} {σ : SimState} {e : PEvent}
    {rest : List PEvent} {σ' : SimState} (hi : SimInv cfg σ)
    (hp : σ.pending = e :: rest) (hk : e.kind = EKind.arrivalLoop)
    (h : handleArrival { σ with now := e.time, pending := rest } = .ok σ') :
    SimInv cfg σ' := by
  obtain ⟨k, hk1, hk2, hk3, e0, he0, huniq, hcase⟩ := hi.arr
  have he : e = e0 := huniq e (by rw [hp]; simp) (by simp [isArrivalEv, hk])
  subst he
  rcases hcase with ⟨_, htime, hpriOr⟩ | ⟨hk0, _⟩
  swap
  · rw [hk] at hk0; cases hk0
  have hsorted := hi.sorted
  rw [hp] at hsorted
  have hlt : ∀ x ∈ rest, keyLt e x := (List.pairwise_cons.1 hsorted).1
  have hrest_sorted : rest.Pairwise keyLt := (List.pairwise_cons.1 hsorted).2
  have hnotmem : e ∉ rest := head_not_mem_tail hsorted
  have hstop : stopEventOf cfg ∈ rest := by
    have := hi.stopMem
    rw [hp] at this
    rcases List.mem_cons.1 this with hEq | hmem
    · rw [← hEq] at hk; cases hk
    · exact hmem
  have hmemE : e ∈ σ.pending := by rw [hp]; simp
  have hnowle : σ.now ≤ e.time := hi.timesGE e hmemE
  have heidrest : ∀ x ∈ rest, x.eid < σ.next_eid := fun x hx =>
    hi.eidBound x (by rw [hp]; exact List.mem_cons_of_mem _ hx)
  have hetlt : e.time < cfg.timeLimit := by
    have hklt := (List.pairwise_cons.1 hsorted).1 _ hstop
    rcases hklt with hlt2 | ⟨hteq, hlt2 | ⟨hpeq, _⟩⟩
    · exact hlt2
    · simp [stopEventOf] at hlt2
    · rcases hpriOr with hpri1 | htime0
      · rw [hpri1] at hpeq
        simp [stopEventOf] at hpeq
      · exfalso
        simp only [stopEventOf] at hteq
        have hT := hi.hT
        rw [← hteq, htime0] at hT
        exact absurd hT (lt_irrefl _)
  have hrestNoArr : ∀ x ∈ rest, isArrivalEv x = false := by
    intro x hx
    by_contra hne
    have hbt : isArrivalEv x = true := by
      revert hne; cases isArrivalEv x <;> simp
    have hxe := huniq x (by rw [hp]; exact List.mem_cons_of_mem _ hx) hbt
    exact hnotmem (hxe ▸ hx)
  rcases handleArrival_ok h with ⟨hcond, _⟩ | ⟨hcond, σ4, hσ4, hbr⟩
  · exfalso
    have hTe : σ.time_limit < e.time := hcond
    rw [hi.hTl] at hTe
    linarith
  have hmidCore : CoreInv cfg (logEvent
      (setQLen
        { σ with
          now := e.time,
          pending := rest,
          next_cid := σ.next_cid + 1,
          queue := σ.queue ++
            [({ cid := σ.next_cid, arrival_time := e.time } : Customer)],
          waiting_customers := σ.waiting_customers ++
            [(σ.next_cid,
              ({ cid := σ.next_cid, arrival_time := e.time } : Customer))] }
        (σ.queue ++
          [({ cid := σ.next_cid, arrival_time := e.time } :
            Customer)]).length)
      .arrival (some σ.next_cid) "") := by
    refine
      { hT := hi.hT
        hIa := by simp [logEvent]; exact hi.hIa
        hTl := by simp [logEvent]; exact hi.hTl
        hN := by simp [logEvent]; exact hi.hN
        hStatic := by simp [logEvent]; exact hi.hStatic
        sorted := by simp [logEvent]; exact hrest_sorted
        eidBound := by
          simp only [logEvent]
          intro x hx
          simp only [setQLen_pending] at hx
          simpa using heidrest x hx
        timesGE := by
          simp only [logEvent]
          intro x hx
          simp only [setQLen_pending] at hx
          simpa using keyLt_time_le (hlt x hx)
        stopMem := by simp [logEvent]; exact hstop
        stopUniq := by
          simp only [logEvent]
          intro x hx hxk
          simp only [setQLen_pending] at hx
          exact hi.stopUniq x (by rw [hp]; exact List.mem_cons_of_mem _ hx)
            hxk
        qlen := by simp [logEvent]
        qwait := by simp [logEvent, hi.qwait]
        counts := by simp [logEvent]; exact hi.counts
        svcLen := by simp [logEvent]; exact hi.svcLen
        svcOK := by
          simp only [logEvent]
          intro x hx c₂ i₂ ht₂
          simp only [setQLen_pending] at hx
          have := hi.svcOK x
            (by rw [hp]; exact List.mem_cons_of_mem _ hx) c₂ i₂ ht₂
          simpa using this
        svcNodup := by
          simp only [logEvent]
          intro x hx x' hx' c₂ i₂ c₃ i₃ ht₂ ht₃ hne
          simp only [setQLen_pending] at hx hx'
          exact hi.svcNodup x (by rw [hp]; exact List.mem_cons_of_mem _ hx)
            x' (by rw [hp]; exact List.mem_cons_of_mem _ hx') c₂ i₂ c₃ i₃
            ht₂ ht₃ hne
        busyHasSvc := by
          simp only [logEvent]
          intro j sj hsj hbj
          simp only [setQLen_servers] at hsj
          have hsj' : σ.servers[j]? = some sj := hsj
          obtain ⟨x, hx, c₃, ht₃⟩ := hi.busyHasSvc j sj hsj' hbj
          rw [hp] at hx
          rcases List.mem_cons.1 hx with rfl | hx
          · rw [hk] at ht₃; cases ht₃
          · exact ⟨x, by simpa using hx, c₃, ht₃⟩
        waitDisj := by
          simp only [logEvent]
          intro x hx hxin
          simp only [setQLen_waiting_customers, setQLen_in_service,
            List.map_append, List.mem_append, List.map_cons, List.map_nil,
            List.mem_cons, List.not_mem_nil, or_false] at hx hxin
          rcases hx with hx | rfl
          · exact hi.waitDisj x (by simpa using hx) (by simpa using hxin)
          · have := hi.svcBound σ.next_cid (by simpa using hxin)
            omega
        waitBound := by
          simp only [logEvent]
          intro x hx
          simp only [setQLen_waiting_customers, setQLen_next_cid,
            List.map_append, List.mem_append, List.map_cons, List.map_nil,
            List.mem_cons, List.not_mem_nil, or_false] at hx ⊢
          rcases hx with hx | rfl
          · have := hi.waitBound x (by simpa using hx)
            omega
          · omega
        svcBound := by
          simp only [logEvent]
          intro x hx
          simp only [setQLen_in_service, setQLen_next_cid] at hx ⊢
          have := hi.svcBound x (by simpa using hx)
          omega
        startedBound := by
          simp only [logEvent]
          intro x hx
          rw [startedCids_append, startedCids_singleton_mk_arrival,
            List.append_nil] at hx
          simp only [setQLen_eventLog, setQLen_next_cid] at hx ⊢
          have := hi.startedBound x (by simpa using hx)
          omega
        queueSorted := by
          simp only [logEvent, setQLen_queue]
          show ((σ.queue ++ _).map (fun c => c.cid)).Pairwise (· < ·)
          rw [List.map_append]
          refine List.pairwise_append.2 ⟨hi.queueSorted, by simp, ?_⟩
          intro a ha b hb
          simp only [List.map_cons, List.map_nil, List.mem_cons,
            List.not_mem_nil, or_false] at hb
          subst hb
          have haw : a ∈ σ.waiting_customers.map (fun p => p.1) := by
            rw [← hi.qwait]; exact ha
          exact hi.waitBound a haw
        startedSorted := by
          simp only [logEvent]
          rw [startedCids_append, startedCids_singleton_mk_arrival,
            List.append_nil]
          simpa using hi.startedSorted
        queueAfterStarted := by
          simp only [logEvent]
          intro a ha b hb
          rw [startedCids_append, startedCids_singleton_mk_arrival,
            List.append_nil] at ha
          simp only [setQLen_eventLog] at ha
          simp only [setQLen_queue, List.map_append, List.mem_append,
            List.map_cons, List.map_nil, List.mem_cons, List.not_mem_nil,
            or_false] at hb
          rcases hb with hb | rfl
          · exact hi.queueAfterStarted a (by simpa using ha) b hb
          · exact hi.startedBound a (by simpa using ha)
        logTimesMono := by
          simp only [logEvent, setQLen_eventLog, List.map_append]
          refine List.pairwise_append.2 ⟨?_, by simp, ?_⟩
          · exact hi.logTimesMono
          · intro a ha b hb
            simp only [List.map_cons, List.map_nil, List.mem_cons,
              List.not_mem_nil, or_false] at hb
            obtain ⟨x, hx, rfl⟩ := List.mem_map.1 ha
            subst hb
            show x.time ≤ (mkLogEntry _ _ _ _).time
            simp only [mkLogEntry, setQLen_now]
            exact le_trans (hi.logTimesLE x hx) hnowle
        logTimesLE := by
          simp only [logEvent]
          intro x hx
          simp only [setQLen_eventLog, List.mem_append, List.mem_cons,
            List.not_mem_nil, or_false] at hx
          rcases hx with hx | rfl
          · show x.time ≤ _
            simpa using le_trans (hi.logTimesLE x hx) hnowle
          · simp [mkLogEntry]
        logGhost := by
          simp only [logEvent]
          intro x hx
          simp only [setQLen_eventLog, List.mem_append, List.mem_cons,
            List.not_mem_nil, or_false] at hx
          rcases hx with hx | rfl
          · exact hi.logGhost x hx
          · refine ⟨?_, serversAvailable_eq_freeCount _⟩
            simp [mkLogEntry]
        waitCount := by
          simp only [logEvent, setQLen_next_cid, setQLen_waiting_customers]
          simp only [List.length_append, List.length_cons, List.length_nil]
          have := hi.waitCount
          simp only [setQLen_count_started]
          omega }
  have hmidNoArr : ∀ x ∈ (logEvent
      (setQLen
        { σ with
          now := e.time,
          pending := rest,
          next_cid := σ.next_cid + 1,
          queue := σ.queue ++
            [({ cid := σ.next_cid, arrival_time := e.time } : Customer)],
          waiting_customers := σ.waiting_customers ++
            [(σ.next_cid,
              ({ cid := σ.next_cid, arrival_time := e.time } : Customer))] }
        (σ.queue ++
          [({ cid := σ.next_cid, arrival_time := e.time } :
            Customer)]).length)
      .arrival (some σ.next_cid) "").pending, isArrivalEv x = false := by
    simp only [logEvent, setQLen_pending]
    intro x hx
    exact hrestNoArr x hx
  have h4core : CoreInv cfg σ4 := by
    rw [hσ4]; exact tryDispatch_core hmidCore
  have h4noArr : ∀ x ∈ σ4.pending, isArrivalEv x = false := by
    rw [hσ4]; exact tryDispatch_noArr hmidNoArr
  have hmidProj := tryDispatch_proj
    (logEvent
      (setQLen
        { σ with
          now := e.time,
          pending := rest,
          next_cid := σ.next_cid + 1,
          queue := σ.queue ++
            [({ cid := σ.next_cid, arrival_time := e.time } : Customer)],
          waiting_customers := σ.waiting_customers ++
            [(σ.next_cid,
              ({ cid := σ.next_cid, arrival_time := e.time } : Customer))] }
        (σ.queue ++
          [({ cid := σ.next_cid, arrival_time := e.time } :
            Customer)]).length)
      .arrival (some σ.next_cid) "")
  have hmidTimes := tryDispatch_arrivalTimes
    (logEvent
      (setQLen
        { σ with
          now := e.time,
          pending := rest,
          next_cid := σ.next_cid + 1,
          queue := σ.queue ++
            [({ cid := σ.next_cid, arrival_time := e.time } : Customer)],
          waiting_customers := σ.waiting_customers ++
            [(σ.next_cid,
              ({ cid := σ.next_cid, arrival_time := e.time } : Customer))] }
        (σ.queue ++
          [({ cid := σ.next_cid, arrival_time := e.time } :
            Customer)]).length)
      .arrival (some σ.next_cid) "")
  have h4now : σ4.now = e.time := by
    rw [hσ4]
    exact hmidProj.1.trans (by simp [logEvent])
  have h4ia : σ4.interarrival_time = cfg.interarrival := h4core.hIa
  have h4tl : σ4.time_limit = cfg.timeLimit := h4core.hTl
  have h4cid : σ4.next_cid = σ.next_cid + 1 := by
    rw [hσ4]
    exact hmidProj.2.2.2.1.trans (by simp [logEvent])
  have h4log : arrivalTimes σ4.eventLog =
      arrivalTimes σ.eventLog ++ [e.time] := by
    rw [hσ4]
    refine hmidTimes.trans ?_
    simp only [logEvent, setQLen_eventLog, arrivalTimes_append,
      arrivalTimes_singleton_mk_arrival, setQLen_now]
  have hnewtimes : arrivalTimes σ.eventLog ++ [e.time] =
      (List.range (k + 1)).map (fun m : ℕ => (m : ℚ) * cfg.interarrival) := by
    rw [hk2, List.range_succ, List.map_append, htime]
    simp
  rcases hbr with ⟨hcondF, hnegF, rfl⟩ | ⟨hcondN, hnegN, rfl⟩
  · -- final branch: advance to the horizon, then stop generating
    have htnew : σ4.now + (σ4.time_limit - σ4.now) = cfg.timeLimit := by
      rw [h4tl]; ring
    refine
      { toCoreInv := schedule_core h4core (by linarith) rfl
          (fun hx => EKind.noConfusion hx)
        arr := ?_ }
    refine ⟨k + 1, ?_, ?_, ?_, ?_⟩
    · show σ4.next_cid = (k + 1) + 1
      rw [h4cid, hk1]
    · show arrivalTimes σ4.eventLog = _
      rw [h4log, hnewtimes]
    · show ∀ t ∈ arrivalTimes σ4.eventLog, t < cfg.timeLimit
      rw [h4log]
      intro t ht
      rcases List.mem_append.1 ht with ht | ht
      · exact hk3 t ht
      · simp only [List.mem_cons, List.not_mem_nil, or_false] at ht
        subst ht
        exact hetlt
    · refine ⟨⟨σ4.now + (σ4.time_limit - σ4.now), 1, σ4.next_eid,
        EKind.arrivalFinal⟩, ?_, ?_, Or.inr ⟨rfl, htnew, rfl, ?_⟩⟩
      · show _ ∈ insertEvent _ σ4.pending
        exact mem_insertEvent.2 (Or.inl rfl)
      · intro x hx hxarr
        rcases mem_insertEvent.1 hx with rfl | hx
        · rfl
        · rw [h4noArr x hx] at hxarr
          cases hxarr
      · rw [h4tl, h4now, h4ia] at hcondF
        rw [htime] at hcondF
        push_cast
        linarith
  · -- normal branch: schedule the next arrival one interarrival later
    refine
      { toCoreInv := schedule_core h4core (by linarith) rfl
          (fun hx => EKind.noConfusion hx)
        arr := ?_ }
    refine ⟨k + 1, ?_, ?_, ?_, ?_⟩
    · show σ4.next_cid = (k + 1) + 1
      rw [h4cid, hk1]
    · show arrivalTimes σ4.eventLog = _
      rw [h4log, hnewtimes]
    · show ∀ t ∈ arrivalTimes σ4.eventLog, t < cfg.timeLimit
      rw [h4log]
      intro t ht
      rcases List.mem_append.1 ht with ht | ht
      · exact hk3 t ht
      · simp only [List.mem_cons, List.not_mem_nil, or_false] at ht
        subst ht
        exact hetlt
    · refine ⟨⟨σ4.now + σ4.interarrival_time, 1, σ4.next_eid,
        EKind.arrivalLoop⟩, ?_, ?_, Or.inl ⟨rfl, ?_, Or.inl rfl⟩⟩
      · show _ ∈ insertEvent _ σ4.pending
        exact mem_insertEvent.2 (Or.inl rfl)
      · intro x hx hxarr
        rcases mem_insertEvent.1 hx with rfl | hx
        · rfl
        · rw [h4noArr x hx] at hxarr
          cases hxarr
      · show σ4.now + σ4.interarrival_time = ((k + 1 : ℕ) : ℚ) * _
        rw [h4now, h4ia, htime]
        push_cast
        ring

theorem step_preserves {cfg : Config} {σ σ' : SimState}
    (hi : SimInv cfg σ) (h : step σ = .next σ') : SimInv cfg σ' := by
  cases hp : σ.pending with
  | nil => simp [step, hp] at h
  | cons e rest =>
    cases hk : e.kind with
    | stopEvent => simp [step, hp, hk] at h
    | arrivalFinal => exact (arrivalFinal_not_head hi hp hk).elim
    | arrivalLoop =>
      simp only [step, hp, hk] at h
      cases hha : handleArrival { σ with now := e.time, pending := rest } with
      | ok t =>
        rw [hha] at h
        simp only [exceptRes, StepRes.next.injEq] at h
        exact preserve_arrivalLoop hi hp hk (h ▸ hha)
      | error er =>
        rw [hha] at h
        simp [exceptRes] at h
    | serviceInit c i =>
      simp only [step, hp, hk] at h
      cases hha : handleServiceInit
          { σ with now := e.time, pending := rest } c i with
      | ok t =>
        rw [hha] at h
        simp only [exceptRes, StepRes.next.injEq] at h
        exact preserve_serviceInit hi hp hk (h ▸ hha)
      | error er =>
        rw [hha] at h
        simp [exceptRes] at h
    | serviceDone c i st =>
      simp only [step, hp, hk] at h
      cases hha : handleServiceDone
          { σ with now := e.time, pending := rest } c i st with
      | ok t =>
        rw [hha] at h
        simp only [exceptRes, StepRes.next.injEq] at h
        exact preserve_serviceDone hi hp hk (h ▸ hha)
      | error er =>
        rw [hha] at h
        simp [exceptRes] at h

theorem stepIter_inv {cfg : Config} :
    ∀ (n : Nat) (σ σ' : SimState), SimInv cfg σ → stepIter n σ = some σ' →
      SimInv cfg σ' := by
  intro n
  induction n with
  | zero =>
    intro σ σ' hi h
    simp only [stepIter, Option.some.injEq] at h
    exact h ▸ hi
  | succ n ih =>
    intro σ σ' hi h
    simp only [stepIter] at h
    cases hs : step σ with
    | next σ1 =>
      rw [hs] at h
      exact ih σ1 σ' (step_preserves hi hs) h
    | halt σ1 => rw [hs] at h; cases h
    | fail er => rw [hs] at h; cases h

theorem startState_inv (cfg : Config) (hT : 0 < cfg.timeLimit) :
    SimInv cfg (startState cfg) := by
  have hnk : ¬ keyLt ⟨cfg.timeLimit, 0, 1, EKind.stopEvent⟩
      ⟨0, 0, 0, EKind.arrivalLoop⟩ := by
    intro hcon
    unfold keyLt at hcon
    simp only at hcon
    rcases hcon with hlt | ⟨heq, _⟩
    · exact absurd (lt_trans hT hlt) (lt_irrefl _)
    · rw [heq] at hT; exact absurd hT (lt_irrefl _)
  have hpend : (startState cfg).pending =
      [⟨0, 0, 0, EKind.arrivalLoop⟩, stopEventOf cfg] := by
    simp only [startState, schedule, initState, insertEvent, stopEventOf]
    rw [if_neg hnk]
  have hserv : (startState cfg).servers =
      cfg.servers.map
        (fun p => ({ name := p.1, service_time := p.2 } : Server)) := rfl
  have hlog : (startState cfg).eventLog = [] := rfl
  have hq : (startState cfg).queue = [] := rfl
  have hwaitE : (startState cfg).waiting_customers = [] := rfl
  have hsvcE : (startState cfg).in_service = [] := rfl
  have hbusy : ∀ l : List (String × ℚ),
      busyCount (l.map
        (fun p => ({ name := p.1, service_time := p.2 } : Server))) = 0 := by
    intro l
    induction l with
    | nil => rfl
    | cons p t ih =>
      simp only [busyCount, List.map_cons, List.filter_cons] at ih ⊢
      exact ih
  refine
    { hT := hT
      hIa := rfl
      hTl := rfl
      hN := rfl
      hStatic := by
        rw [hserv]
        induction cfg.servers with
        | nil => rfl
        | cons p t ih =>
          simp only [List.map_cons]
          rw [ih]
      sorted := by
        rw [hpend]
        refine List.pairwise_cons.2 ⟨?_, by simp⟩
        intro x hx
        simp only [List.mem_cons, List.not_mem_nil, or_false] at hx
        subst hx
        show keyLt _ (stopEventOf cfg)
        exact Or.inl hT
      eidBound := by
        rw [hpend]
        intro x hx
        rcases List.mem_cons.1 hx with rfl | hx
        · show 0 < 2; omega
        · simp only [List.mem_cons, List.not_mem_nil, or_false] at hx
          subst hx
          show 1 < 2; omega
      timesGE := by
        rw [hpend]
        intro x hx
        rcases List.mem_cons.1 hx with rfl | hx
        · exact le_refl _
        · simp only [List.mem_cons, List.not_mem_nil, or_false] at hx
          subst hx
          exact le_of_lt hT
      stopMem := by rw [hpend]; simp
      stopUniq := by
        rw [hpend]
        intro x hx hxk
        rcases List.mem_cons.1 hx with rfl | hx
        · cases hxk
        · simp only [List.mem_cons, List.not_mem_nil, or_false] at hx
          exact hx
      qlen := rfl
      qwait := rfl
      counts := by
        show 0 = 0 + busyCount (startState cfg).servers
        rw [hserv, hbusy]
      svcLen := by
        show ([] : List (Nat × Customer)).length = busyCount (startState cfg).servers
        rw [hserv, hbusy]
        rfl
      svcOK := by
        rw [hpend]
        intro x hx c i ht
        rcases List.mem_cons.1 hx with rfl | hx
        · cases ht
        · simp only [List.mem_cons, List.not_mem_nil, or_false] at hx
          subst hx
          cases ht
      svcNodup := by
        rw [hpend]
        intro x hx x' hx' c i c' i' ht ht' hne
        rcases List.mem_cons.1 hx with rfl | hx
        · cases ht
        · simp only [List.mem_cons, List.not_mem_nil, or_false] at hx
          subst hx
          cases ht
      busyHasSvc := by
        intro j sj hsj hbj
        exfalso
        rw [hserv, List.getElem?_map] at hsj
        cases hp : cfg.servers[j]? with
        | none => rw [hp] at hsj; cases hsj
        | some p =>
          rw [hp] at hsj
          have hsj2 : ({ name := p.1, service_time := p.2 } : Server) = sj := by
            simpa using hsj
          rw [← hsj2] at hbj
          cases hbj
      waitDisj := by intro x hx; rw [hwaitE] at hx; simp at hx
      waitBound := by intro x hx; rw [hwaitE] at hx; simp at hx
      svcBound := by intro x hx; rw [hsvcE] at hx; simp at hx
      startedBound := by
        intro x hx; rw [hlog] at hx; simp [startedCids] at hx
      queueSorted := by rw [hq]; simp
      startedSorted := by rw [hlog]; simp [startedCids]
      queueAfterStarted := by
        intro a ha; rw [hlog] at ha; simp [startedCids] at ha
      logTimesMono := by rw [hlog]; simp
      logTimesLE := by intro x hx; rw [hlog] at hx; simp at hx
      logGhost := by intro x hx; rw [hlog] at hx; simp at hx
      waitCount := rfl
      arr := ?_ }
  refine ⟨0, rfl, by rw [hlog]; rfl,
    by intro t ht; rw [hlog] at ht; simp [arrivalTimes] at ht,
    ⟨0, 0, 0, EKind.arrivalLoop⟩, by rw [hpend]; simp, ?_,
    Or.inl ⟨rfl, by simp, Or.inr rfl⟩⟩
  rw [hpend]
  intro x hx hxarr
  rcases List.mem_cons.1 hx with rfl | hx
  · rfl
  · simp only [List.mem_cons, List.not_mem_nil, or_false] at hx
    subst hx
    simp [isArrivalEv, stopEventOf] at hxarr

theorem reach_inv {cfg : Config} {σ : SimState} (h : Reach cfg σ) :
    SimInv cfg σ := by
  obtain ⟨hT, n, hs⟩ := h
  exact stepIter_inv n _ σ (startState_inv cfg hT) hs

theorem step_halt_shape {cfg : Config} {σ σf : SimState}
    (hi : SimInv cfg σ) (h : step σ = .halt σf) :
    ∃ rest, σ.pending = stopEventOf cfg :: rest ∧
      σf = { σ with now := cfg.timeLimit, pending := rest } := by
  cases hp : σ.pending with
  | nil => simp [step, hp] at h
  | cons e rest =>
    have hhead : e ∈ σ.pending := by rw [hp]; simp
    cases hk : e.kind with
    | stopEvent =>
      have he : e = stopEventOf cfg := hi.stopUniq e hhead hk
      refine ⟨rest, by rw [he], ?_⟩
      simp only [step, hp, hk] at h
      simp only [StepRes.halt.injEq] at h
      rw [← h, he]
      rfl
    | arrivalLoop =>
      simp only [step, hp, hk] at h
      cases hha : handleArrival { σ with now := e.time, pending := rest } with
      | ok t => rw [hha] at h; simp [exceptRes] at h
      | error er => rw [hha] at h; simp [exceptRes] at h
    | arrivalFinal => simp [step, hp, hk] at h
    | serviceInit c i =>
      simp only [step, hp, hk] at h
      cases hha : handleServiceInit
          { σ with now := e.time, pending := rest } c i with
      | ok t => rw [hha] at h; simp [exceptRes] at h
      | error er => rw [hha] at h; simp [exceptRes] at h
    | serviceDone c i st =>
      simp only [step, hp, hk] at h
      cases hha : handleServiceDone
          { σ with now := e.time, pending := rest } c i st with
      | ok t => rw [hha] at h; simp [exceptRes] at h
      | error er => rw [hha] at h; simp [exceptRes] at h

theorem runAux_ok {n : Nat} {σ σf : SimState}
    (h : runAux n σ = .ok σf) :
    ∃ m σp, stepIter m σ = some σp ∧ step σp = .halt σf := by
  induction n generalizing σ with
  | zero => simp [runAux] at h
  | succ n ih =>
    simp only [runAux] at h
    cases hs : step σ with
    | halt σ1 =>
      rw [hs] at h
      simp only [Except.ok.injEq] at h
      exact ⟨0, σ, rfl, h ▸ hs⟩
    | next σ1 =>
      rw [hs] at h
      obtain ⟨m, σp, h1, h2⟩ := ih h
      exact ⟨m + 1, σp, by simp only [stepIter, hs]; exact h1, h2⟩
    | fail er => rw [hs] at h; cases h

theorem runSim_ok {cfg : Config} {fuel : Nat} {σf : SimState}
    (h : runSim cfg fuel = .ok σf) :
    0 < cfg.timeLimit ∧
      ∃ σp, Reach cfg σp ∧ step σp = .halt σf := by
  simp only [runSim] at h
  split at h
  · cases h
  · rename_i hT
    push_neg at hT
    obtain ⟨m, σp, h1, h2⟩ := runAux_ok h
    exact ⟨hT, σp, ⟨hT, m, h1⟩, h2⟩

theorem stepIter_snoc {n : Nat} {σ0 σ σ' : SimState}
    (h1 : stepIter n σ0 = some σ) (h2 : step σ = .next σ') :
    stepIter (n + 1) σ0 = some σ' := by
  induction n generalizing σ0 with
  | zero =>
    simp only [stepIter, Option.some.injEq] at h1
    subst h1
    simp [stepIter, h2]
  | succ n ih =>
    simp only [stepIter] at h1 ⊢
    cases hs : step σ0 with
    | next σ1 =>
      simp only [hs] at h1 ⊢
      exact ih h1
    | halt σ1 => simp only [hs] at h1; cases h1
    | fail e => simp only [hs] at h1; cases h1

theorem runAux_mono : ∀ (n m : Nat), n ≤ m → ∀ σ : SimState,
    runAux n σ ≠ .error .outOfFuel → runAux m σ = runAux n σ := by
  intro n
  induction n with
  | zero => intro m _ σ h; exact absurd rfl h
  | succ n ih =>
    intro m hm σ h
    cases m with
    | zero => omega
    | succ m =>
      simp only [runAux] at h ⊢
      cases hs : step σ with
      | halt σ' => simp [hs]
      | fail e => simp [hs]
      | next σ' =>
        simp only [hs] at h ⊢
        exact ih m (by omega) σ' h

theorem handleArrival_err {σ : SimState} {er : RunErr}
    (h : handleArrival σ = .error er) : er = .valueError := by
  simp only [handleArrival] at h
  split at h
  · cases h
  · split at h
    · simp only [timeoutSched] at h
      split at h
      · exact (Except.error.inj h).symm
      · cases h
    · simp only [timeoutSched] at h
      split at h
      · exact (Except.error.inj h).symm
      · cases h

theorem handleServiceInit_err {σ : SimState} {c i : Nat} {er : RunErr}
    (h : handleServiceInit σ c i = .error er) :
    er = .indexError ∨ er = .valueError := by
  cases hg : σ.servers[i]? with
  | none =>
    simp only [handleServiceInit, hg] at h
    exact Or.inl (Except.error.inj h).symm
  | some s =>
    simp only [handleServiceInit, hg, timeoutSched] at h
    split at h
    · exact Or.inr (Except.error.inj h).symm
    · cases h

theorem handleServiceDone_err {σ : SimState} {c i : Nat} {st : ℚ}
    {er : RunErr} (h : handleServiceDone σ c i st = .error er) :
    er = .indexError := by
  cases hg : σ.servers[i]? with
  | none =>
    simp only [handleServiceDone, hg] at h
    exact (Except.error.inj h).symm
  | some s =>
    simp only [handleServiceDone, hg] at h
    cases h

theorem step_fail_not_fuel {σ : SimState} {er : RunErr}
    (h : step σ = .fail er) : er ≠ .outOfFuel := by
  cases hp : σ.pending with
  | nil =>
    simp only [step, hp, StepRes.fail.injEq] at h
    subst h
    intro hc
    cases hc
  | cons e rest =>
    cases hk : e.kind with
    | stopEvent => simp [step, hp, hk] at h
    | arrivalFinal => simp [step, hp, hk] at h
    | arrivalLoop =>
      simp only [step, hp, hk] at h
      cases hha : handleArrival { σ with now := e.time, pending := rest } with
      | ok t => rw [hha] at h; simp [exceptRes] at h
      | error er' =>
        rw [hha] at h
        simp only [exceptRes, StepRes.fail.injEq] at h
        subst h
        rw [handleArrival_err hha]
        intro hc
        cases hc
    | serviceInit c i =>
      simp only [step, hp, hk] at h
      cases hha : handleServiceInit
          { σ with now := e.time, pending := rest } c i with
      | ok t => rw [hha] at h; simp [exceptRes] at h
      | error er' =>
        rw [hha] at h
        simp only [exceptRes, StepRes.fail.injEq] at h
        subst h
        rcases handleServiceInit_err hha with h1 | h1 <;>
          · rw [h1]; intro hc; cases hc
    | serviceDone c i st =>
      simp only [step, hp, hk] at h
      cases hha : handleServiceDone
          { σ with now := e.time, pending := rest } c i st with
      | ok t => rw [hha] at h; simp [exceptRes] at h
      | error er' =>
        rw [hha] at h
        simp only [exceptRes, StepRes.fail.injEq] at h
        subst h
        rw [handleServiceDone_err hha]
        intro hc
        cases hc

theorem dispatchOne_counts {σ σ' : SimState} (h : dispatchOne σ = some σ') :
    3 * σ'.queue.length + 3 * σ'.pending.countP isServiceInitEv =
      3 * σ.queue.length + 3 * σ.pending.countP isServiceInitEv ∧
    σ'.pending.countP isServiceDoneEv = σ.pending.countP isServiceDoneEv ∧
    σ'.pending.countP isArrivalFinalEv = σ.pending.countP isArrivalFinalEv := by
  obtain ⟨c, rest, i, s, hq, hf, hnow, hia, htl, hN, hq', hw', hcid, hcur,
    hmax, hcs, hcc, htw, hts, hsrv, hins, hlog, hpend, heid⟩ :=
    dispatchOne_some h
  rw [hq', hpend, hq, insertEvent_countP, insertEvent_countP,
    insertEvent_countP]
  refine ⟨?_, ?_, ?_⟩ <;>
    simp [List.countP_cons, isServiceInitEv, isServiceDoneEv,
      isArrivalFinalEv] <;>
    omega

theorem tryDispatch_counts (σ : SimState) :
    3 * (tryDispatch σ).queue.length +
        3 * (tryDispatch σ).pending.countP isServiceInitEv =
      3 * σ.queue.length + 3 * σ.pending.countP isServiceInitEv ∧
    (tryDispatch σ).pending.countP isServiceDoneEv =
      σ.pending.countP isServiceDoneEv ∧
    (tryDispatch σ).pending.countP isArrivalFinalEv =
      σ.pending.countP isArrivalFinalEv := by
  obtain ⟨n, hn⟩ : ∃ n, σ.queue.length ≤ n := ⟨σ.queue.length, le_refl _⟩
  induction n generalizing σ with
  | zero =>
    have hq : σ.queue = [] := List.length_eq_zero.1 (Nat.le_zero.1 hn)
    rw [tryDispatch_unfold, dispatchOne_nil hq]
    exact ⟨rfl, rfl, rfl⟩
  | succ n ih =>
    rw [tryDispatch_unfold]
    cases hd : dispatchOne σ with
    | none => exact ⟨rfl, rfl, rfl⟩
    | some σ' =>
      have hlen := dispatchOne_queue_length hd
      have h1 := dispatchOne_counts hd
      have h2 := ih σ' (by omega)
      exact ⟨h2.1.trans h1.1, h2.2.1.trans h1.2.1, h2.2.2.trans h1.2.2⟩

theorem phi_tryDispatch (cfg : Config) (σ : SimState) :
    phi cfg (tryDispatch σ) = phi cfg σ := by
  have hc := tryDispatch_counts σ
  have hpj := tryDispatch_proj σ
  simp only [phi]
  rw [hpj.2.2.2.1]
  omega

theorem step_phi {cfg : Config} {σ σ' : SimState} (hi : SimInv cfg σ)
    (hpos : 0 < cfg.interarrival) (h : step σ = .next σ') :
    phi cfg σ' < phi cfg σ := by
  cases hp : σ.pending with
  | nil => simp [step, hp] at h
  | cons e rest =>
    have hsorted := hi.sorted
    rw [hp] at hsorted
    cases hk : e.kind with
    | stopEvent => simp [step, hp, hk] at h
    | arrivalFinal => exact (arrivalFinal_not_head hi hp hk).elim
    | serviceInit c i =>
      simp only [step, hp, hk] at h
      cases hha : handleServiceInit
          { σ with now := e.time, pending := rest } c i with
      | error er => rw [hha] at h; simp [exceptRes] at h
      | ok t =>
        rw [hha] at h
        simp only [exceptRes, StepRes.next.injEq] at h
        subst h
        obtain ⟨s, hgs, hnn, ht⟩ := handleServiceInit_ok hha
        rw [ht]
        simp only [phi, schedule, insertEvent_countP, hp]
        simp [List.countP_cons, isServiceInitEv, isServiceDoneEv,
          isArrivalFinalEv, hk]
        omega
    | serviceDone c i st =>
      simp only [step, hp, hk] at h
      cases hha : handleServiceDone
          { σ with now := e.time, pending := rest } c i st with
      | error er => rw [hha] at h; simp [exceptRes] at h
      | ok t =>
        rw [hha] at h
        simp only [exceptRes, StepRes.next.injEq] at h
        subst h
        obtain ⟨s, hgs, ht⟩ := handleServiceDone_ok hha
        rw [ht, phi_tryDispatch]
        simp only [phi, logEvent, hp]
        simp [List.countP_cons, isServiceInitEv, isServiceDoneEv,
          isArrivalFinalEv, hk]
    | arrivalLoop =>
      simp only [step, hp, hk] at h
      cases hha : handleArrival { σ with now := e.time, pending := rest } with
      | error er => rw [hha] at h; simp [exceptRes] at h
      | ok t =>
        rw [hha] at h
        simp only [exceptRes, StepRes.next.injEq] at h
        subst h
        obtain ⟨k, hk1, hk2, hk3, e0, he0, huniq, hcase⟩ := hi.arr
        have he : e = e0 := huniq e (by rw [hp]; simp) (by simp [isArrivalEv, hk])
        subst he
        rcases hcase with ⟨_, htime, hpriOr⟩ | ⟨hk0, _⟩
        swap
        · rw [hk] at hk0; cases hk0
        have hstop : stopEventOf cfg ∈ rest := by
          have := hi.stopMem
          rw [hp] at this
          rcases List.mem_cons.1 this with hEq | hmem
          · rw [← hEq] at hk; cases hk
          · exact hmem
        have hetlt : e.time < cfg.timeLimit := by
          have hklt := (List.pairwise_cons.1 hsorted).1 _ hstop
          rcases hklt with hlt2 | ⟨hteq, hlt2 | ⟨hpeq, _⟩⟩
          · exact hlt2
          · simp [stopEventOf] at hlt2
          · rcases hpriOr with hpri1 | htime0
            · rw [hpri1] at hpeq
              simp [stopEventOf] at hpeq
            · exfalso
              simp only [stopEventOf] at hteq
              have hT := hi.hT
              rw [← hteq, htime0] at hT
              exact absurd hT (lt_irrefl _)
        have hkQ : (k : ℚ) * cfg.interarrival < cfg.timeLimit := by
          rw [← htime]; exact hetlt
        have hkK : k < Nat.ceil (cfg.timeLimit / cfg.interarrival) := by
          rw [Nat.lt_ceil]
          exact (lt_div_iff₀ hpos).2 hkQ
        rcases handleArrival_ok hha with ⟨hcond, _⟩ | ⟨hcond, σ4, hσ4, hbr⟩
        · exfalso
          have hTe : σ.time_limit < e.time := hcond
          rw [hi.hTl] at hTe
          linarith
        have hmidProj := tryDispatch_proj
          (logEvent
            (setQLen
              { σ with
                now := e.time,
                pending := rest,
                next_cid := σ.next_cid + 1,
                queue := σ.queue ++
                  [({ cid := σ.next_cid, arrival_time := e.time } : Customer)],
                waiting_customers := σ.waiting_customers ++
                  [(σ.next_cid,
                    ({ cid := σ.next_cid, arrival_time := e.time } :
                      Customer))] }
              (σ.queue ++
                [({ cid := σ.next_cid, arrival_time := e.time } :
                  Customer)]).length)
            .arrival (some σ.next_cid) "")
        have hmidCnt := tryDispatch_counts
          (logEvent
            (setQLen
              { σ with
                now := e.time,
                pending := rest,
                next_cid := σ.next_cid + 1,
                queue := σ.queue ++
                  [({ cid := σ.next_cid, arrival_time := e.time } : Customer)],
                waiting_customers := σ.waiting_customers ++
                  [(σ.next_cid,
                    ({ cid := σ.next_cid, arrival_time := e.time } :
                      Customer))] }
              (σ.queue ++
                [({ cid := σ.next_cid, arrival_time := e.time } :
                  Customer)]).length)
            .arrival (some σ.next_cid) "")
        have h4cid : σ4.next_cid = σ.next_cid + 1 := by
          rw [hσ4]
          exact hmidProj.2.2.2.1.trans (by simp [logEvent])
        have h4q : 3 * σ4.queue.length +
            3 * σ4.pending.countP isServiceInitEv =
            3 * (σ.queue.length + 1) + 3 * rest.countP isServiceInitEv := by
          rw [hσ4]
          refine hmidCnt.1.trans ?_
          simp [logEvent]
        have h4d : σ4.pending.countP isServiceDoneEv =
            rest.countP isServiceDoneEv := by
          rw [hσ4]
          refine hmidCnt.2.1.trans ?_
          simp [logEvent]
        have h4f : σ4.pending.countP isArrivalFinalEv =
            rest.countP isArrivalFinalEv := by
          rw [hσ4]
          refine hmidCnt.2.2.trans ?_
          simp [logEvent]
        rcases hbr with ⟨hcond2, hnn, hs'⟩ | ⟨hcond2, hnn, hs'⟩ <;>
        · rw [hs']
          simp only [phi, schedule, insertEvent_countP, hp]
          simp [List.countP_cons, isServiceInitEv, isServiceDoneEv,
            isArrivalFinalEv, hk]
          rw [h4cid, hk1]
          omega

theorem runAux_term {cfg : Config} (hpos : 0 < cfg.interarrival) :
    ∀ (n : Nat) (σ : SimState), SimInv cfg σ → phi cfg σ < n →
      runAux n σ ≠ .error .outOfFuel := by
  intro n
  induction n with
  | zero => intro σ _ hlt; exact absurd hlt (Nat.not_lt_zero _)
  | succ n ih =>
    intro σ hi hlt
    simp only [runAux]
    cases hs : step σ with
    | halt σ' => simp
    | fail er =>
      intro hc
      exact step_fail_not_fuel hs (Except.error.inj hc)
    | next σ' =>
      exact ih σ' (step_preserves hi hs)
        (lt_of_lt_of_le (step_phi hi hpos hs) (by omega))

theorem runSim_terminates {cfg : Config} (hpos : 0 < cfg.interarrival) :
    ∃ N, ∀ fuel, N ≤ fuel →
      runSim cfg fuel = runSim cfg N ∧
      runSim cfg N ≠ .error .outOfFuel := by
  by_cases hT : cfg.timeLimit ≤ 0
  · refine ⟨0, fun fuel _ => ?_⟩
    simp [runSim, hT]
  · push_neg at hT
    refine ⟨phi cfg (startState cfg) + 1, fun fuel hf => ?_⟩
    have hno : runAux (phi cfg (startState cfg) + 1) (startState cfg) ≠
        .error .outOfFuel :=
      runAux_term hpos _ _ (startState_inv cfg hT) (by omega)
    constructor
    · simp only [runSim, if_neg (not_le.2 hT)]
      exact runAux_mono _ fuel hf _ hno
    · simp only [runSim, if_neg (not_le.2 hT)]
      exact hno

theorem servers_static {cfg : Config} {σ : SimState} (hi : SimInv cfg σ)
    {i : Nat} {s : Server} (hg : σ.servers[i]? = some s) :
    (s.name, s.service_time) ∈ cfg.servers := by
  have hmem : s ∈ σ.servers := by
    rcases List.getElem?_eq_some.1 hg with ⟨hilt, hEq⟩
    exact hEq ▸ List.getElem_mem _
  rw [← hi.hStatic]
  exact List.mem_map_of_mem _ hmem

theorem handleArrival_error_cond {σ : SimState} {er : RunErr}
    (h : handleArrival σ = .error er) :
    σ.interarrival_time < 0 ∨ σ.time_limit - σ.now < 0 := by
  simp only [handleArrival] at h
  split at h
  · cases h
  · split at h
    · simp only [timeoutSched] at h
      split at h
      · rename_i hneg
        rw [(tryDispatch_proj _).2.2.1, (tryDispatch_proj _).1] at hneg
        simp only [logEvent, setQLen_time_limit, setQLen_now] at hneg
        exact Or.inr hneg
      · cases h
    · simp only [timeoutSched] at h
      split at h
      · rename_i hneg
        rw [(tryDispatch_proj _).2.1] at hneg
        simp only [logEvent, setQLen_interarrival_time] at hneg
        exact Or.inl hneg
      · cases h

theorem handleArrival_isOk (σ : SimState) (hia : 0 ≤ σ.interarrival_time)
    (hle : σ.now ≤ σ.time_limit) :
    ∃ σ', handleArrival σ = .ok σ' := by
  cases hha : handleArrival σ with
  | ok t => exact ⟨t, rfl⟩
  | error er =>
    exfalso
    rcases handleArrival_error_cond hha with hc | hc
    · linarith
    · linarith

theorem head_time_le_stop {cfg : Config} {σ : SimState} (hi : SimInv cfg σ)
    {e : PEvent} {rest : List PEvent} (hp : σ.pending = e :: rest)
    (hk : e.kind ≠ EKind.stopEvent) : e.time ≤ cfg.timeLimit := by
  have hstop : stopEventOf cfg ∈ rest := by
    have := hi.stopMem
    rw [hp] at this
    rcases List.mem_cons.1 this with hEq | hmem
    · exact absurd (by rw [← hEq]; rfl : e.kind = EKind.stopEvent) hk
    · exact hmem
  have hsorted := hi.sorted
  rw [hp] at hsorted
  exact keyLt_time_le ((List.pairwise_cons.1 hsorted).1 _ hstop)

theorem step_no_fail {cfg : Config} {σ : SimState} (hi : SimInv cfg σ)
    (hia : 0 ≤ cfg.interarrival) (hst : ∀ p ∈ cfg.servers, 0 ≤ p.2) :
    (∃ σ', step σ = .next σ') ∨ (∃ σ', step σ = .halt σ') := by
  cases hp : σ.pending with
  | nil =>
    exfalso
    have := hi.stopMem
    rw [hp] at this
    cases this
  | cons e rest =>
    cases hk : e.kind with
    | stopEvent =>
      right
      exact ⟨_, by simp only [step, hp, hk]; rfl⟩
    | arrivalFinal =>
      left
      exact ⟨_, by simp only [step, hp, hk]; rfl⟩
    | arrivalLoop =>
      left
      have hle : e.time ≤ σ.time_limit := by
        rw [hi.hTl]
        exact head_time_le_stop hi hp (by rw [hk]; intro hc; cases hc)
      have hia' : 0 ≤ σ.interarrival_time := by rw [hi.hIa]; exact hia
      cases hha : handleArrival { σ with now := e.time, pending := rest } with
      | ok t =>
        exact ⟨t, by simp only [step, hp, hk]; rw [hha]; rfl⟩
      | error er =>
        exfalso
        rcases handleArrival_error_cond hha with hc | hc
        · have hc' : σ.interarrival_time < 0 := hc
          linarith
        · have hc' : σ.time_limit - e.time < 0 := hc
          linarith
    | serviceInit c i =>
      left
      have hmemE : e ∈ σ.pending := by rw [hp]; simp
      obtain ⟨s, hgs, _, _, _⟩ :=
        hi.svcOK e hmemE c i (by rw [hk]; rfl)
      have h0st : 0 ≤ s.service_time := hst _ (servers_static hi hgs)
      cases hha : handleServiceInit
          { σ with now := e.time, pending := rest } c i with
      | ok t =>
        exact ⟨t, by simp only [step, hp, hk]; rw [hha]; rfl⟩
      | error er =>
        exfalso
        simp only [handleServiceInit, hgs, timeoutSched] at hha
        split at hha
        · rename_i hneg
          linarith
        · cases hha
    | serviceDone c i st =>
      left
      have hmemE : e ∈ σ.pending := by rw [hp]; simp
      obtain ⟨s, hgs, _, _, _⟩ :=
        hi.svcOK e hmemE c i (by rw [hk]; rfl)
      cases hha : handleServiceDone
          { σ with now := e.time, pending := rest } c i st with
      | ok t =>
        exact ⟨t, by simp only [step, hp, hk]; rw [hha]; rfl⟩
      | error er =>
        exfalso
        simp only [handleServiceDone, hgs] at hha
        cases hha

theorem zeroIa_no_halt {cfg : Config} {σ : SimState} (hi : SimInv cfg σ)
    (hia0 : cfg.interarrival = 0) : ∀ σf, step σ ≠ .halt σf := by
  intro σf hhalt
  obtain ⟨rest, hpend, _⟩ := step_halt_shape hi hhalt
  obtain ⟨k, hk1, hk2, hk3, e0, he0, huniq, hcase⟩ := hi.arr
  have he0t : e0.time = 0 := by
    rcases hcase with ⟨_, ht0, _⟩ | ⟨_, _, _, hlt0⟩
    · rw [ht0, hia0, mul_zero]
    · exfalso
      rw [hia0, mul_zero] at hlt0
      exact absurd (lt_trans hi.hT hlt0) (lt_irrefl _)
  rw [hpend] at he0
  rcases List.mem_cons.1 he0 with hEq | hmem
  · rcases hcase with ⟨hk0, _⟩ | ⟨hk0, _⟩ <;> · rw [hEq] at hk0; cases hk0
  · have hsorted := hi.sorted
    rw [hpend] at hsorted
    have hle := keyLt_time_le ((List.pairwise_cons.1 hsorted).1 _ hmem)
    rw [he0t] at hle
    simp only [stopEventOf] at hle
    exact absurd (lt_of_lt_of_le hi.hT hle) (lt_irrefl _)

theorem noTerm_zeroIa {cfg : Config} (hia0 : cfg.interarrival = 0)
    (hst : ∀ p ∈ cfg.servers, 0 ≤ p.2) :
    ∀ (fuel : Nat) (σ : SimState), Reach cfg σ →
      runAux fuel σ = .error .outOfFuel := by
  intro fuel
  induction fuel with
  | zero => intro σ _; rfl
  | succ n ih =>
    intro σ hr
    have hi := reach_inv hr
    have hnf := step_no_fail hi (le_of_eq hia0.symm) hst
    rcases hnf with ⟨σ', hs⟩ | ⟨σ', hs⟩
    · simp only [runAux, hs]
      apply ih
      obtain ⟨hT, m, hm⟩ := hr
      exact ⟨hT, m + 1, stepIter_snoc hm hs⟩
    · exact absurd hs (zeroIa_no_halt hi hia0 σ')

theorem runSim_final {cfg : Config} {fuel : Nat} {σf : SimState}
    (h : runSim cfg fuel = .ok σf) :
    σf.now = cfg.timeLimit ∧
    σf.nServers = cfg.servers.length ∧
    σf.count_started = σf.count_completed + busyCount σf.servers ∧
    σf.in_service.length = busyCount σf.servers ∧
    σf.cur_q_len = σf.queue.length ∧
    σf.queue.length = σf.waiting_customers.length ∧
    (∀ e ∈ σf.eventLog, e.length = e.g_len ∧ e.available = e.g_avail) ∧
    (∃ k : ℕ, σf.next_cid = k + 1 ∧
      arrivalTimes σf.eventLog =
        (List.range k).map (fun m : ℕ => (m : ℚ) * cfg.interarrival) ∧
      (∀ t ∈ arrivalTimes σf.eventLog, t < cfg.timeLimit) ∧
      cfg.timeLimit ≤ (k : ℚ) * cfg.interarrival) := by
  obtain ⟨hT, σp, hrp, hhalt⟩ := runSim_ok h
  have hip := reach_inv hrp
  obtain ⟨rest, hpend, hσf⟩ := step_halt_shape hip hhalt
  obtain ⟨k, hk1, hk2, hk3, e0, he0, huniq, hcase⟩ := hip.arr
  have hqw : σp.queue.length = σp.waiting_customers.length := by
    have := congrArg List.length hip.qwait
    simpa using this
  have hTk : cfg.timeLimit ≤ (k : ℚ) * cfg.interarrival := by
    rw [hpend] at he0
    rcases List.mem_cons.1 he0 with hEq | hmem
    · exfalso
      rcases hcase with ⟨hk0, _⟩ | ⟨hk0, _⟩ <;> · rw [hEq] at hk0; cases hk0
    · have hsorted := hip.sorted
      rw [hpend] at hsorted
      have hle := keyLt_time_le ((List.pairwise_cons.1 hsorted).1 _ hmem)
      simp only [stopEventOf] at hle
      rcases hcase with ⟨_, ht0, _⟩ | ⟨_, ht0, _, hgt⟩
      · rw [ht0] at hle; exact hle
      · exact le_of_lt hgt
  rw [hσf]
  refine ⟨rfl, hip.hN, ?_, ?_, ?_, ?_, ?_, k, hk1, hk2, ?_, hTk⟩
  · exact hip.counts
  · exact hip.svcLen
  · exact hip.qlen
  · exact hqw
  · exact hip.logGhost
  · exact hk3

theorem updQ_stable {σ : SimState}
    (h : ¬ 0 < σ.now - σ.last_q_change_time) : updateQTimeArea σ = σ := by
  simp only [updateQTimeArea]
  rw [if_neg h]

theorem updQ_closed (σ : SimState) :
    ¬ 0 < (updateQTimeArea σ).now -
      (updateQTimeArea σ).last_q_change_time := by
  by_cases h : 0 < σ.now - σ.last_q_change_time
  · simp only [updateQTimeArea]
    rw [if_pos h]
    simp
  · simp only [updateQTimeArea]
    rw [if_neg h]
    exact h

theorem closeServer_idem (t : ℚ) (s : Server) :
    closeServer t (closeServer t s) = closeServer t s := by
  by_cases hb : s.busy
  · simp [closeServer, hb]
  · simp [closeServer, hb]

theorem busy_closeServer (t : ℚ) (s : Server) :
    (closeServer t s).busy = s.busy := by
  by_cases hb : s.busy <;> simp [closeServer, hb]

theorem busyCount_close (t : ℚ) (l : List Server) :
    busyCount (l.map (closeServer t)) = busyCount l := by
  induction l with
  | nil => rfl
  | cons s tl ih =>
    simp only [busyCount, List.map_cons, List.filter_cons,
      busy_closeServer] at ih ⊢
    by_cases hb : s.busy <;> simp [hb, ih]

theorem map_closeServer_idem (t : ℚ) (l : List Server) :
    (l.map (closeServer t)).map (closeServer t) = l.map (closeServer t) := by
  induction l with
  | nil => rfl
  | cons s tl ih =>
    simp only [List.map_cons, closeServer_idem, ih]

theorem finalize_idem (σ : SimState) :
    finalizeStats ((finalizeStats σ).2) = finalizeStats σ := by
  have hS : updateQTimeArea
      { updateQTimeArea σ with
        servers := (updateQTimeArea σ).servers.map (closeServer σ.now) } =
      { updateQTimeArea σ with
        servers := (updateQTimeArea σ).servers.map (closeServer σ.now) } :=
    updQ_stable (by simpa using updQ_closed σ)
  simp only [finalizeStats]
  rw [hS]
  dsimp only
  simp only [updQ_now, updQ_servers]
  rw [busyCount_close, map_closeServer_idem]

theorem name_closeServer (t : ℚ) (s : Server) :
    (closeServer t s).name = s.name := by
  by_cases hb : s.busy <;> simp [closeServer, hb]

theorem closeServer_accum (t : ℚ) (s : Server) :
    (closeServer t s).busy_time_accum =
      s.busy_time_accum + (if s.busy then t - s.last_state_change else 0) := by
  by_cases hb : s.busy <;> simp [closeServer, hb]

theorem perUtil_formula (T : ℚ) (hT : 0 < T) (l : List Server) :
    (l.map (closeServer T)).map
        (fun s => (s.name, if 0 < T then s.busy_time_accum / T else 0)) =
      l.map (fun s => (s.name,
        (s.busy_time_accum +
          (if s.busy then T - s.last_state_change else 0)) / T)) := by
  induction l with
  | nil => rfl
  | cons s tl ih =>
    simp only [List.map_cons, ih]
    rw [if_pos hT, name_closeServer, closeServer_accum]

theorem busySum_formula (T : ℚ) (l : List Server) :
    ((l.map (closeServer T)).map (fun s => s.busy_time_accum)).sum =
      (l.map (fun s => s.busy_time_accum +
        (if s.busy then T - s.last_state_change else 0))).sum := by
  induction l with
  | nil => rfl
  | cons s tl ih =>
    simp only [List.map_cons, List.sum_cons, ih, closeServer_accum]

/-- C1: for the scenario configuration (one server `S1` with service time 4,
interarrival time 3, horizon 10) the run prints exactly the nine claimed CSV
lines — ARRIVAL C1 (t=0, len 1, avail 1), SERVICE_START C1/S1 (t=0, 0, 0),
ARRIVAL C2 (t=3, 1, 0), SERVICE_DONE C1/S1 (t=4, 1, 1), SERVICE_START C2/S1
(t=4, 0, 0), ARRIVAL C3 (t=6, 1, 0), SERVICE_DONE C2/S1 (t=8, 1, 1),
SERVICE_START C3/S1 (t=8, 0, 0), ARRIVAL C4 (t=9, 1, 0) — and the claimed
aggregates: average queue length 2/5, maximum queue length 1, average wait
(0+1+2)/3 = 1, end queue length 1, average remaining wait 1, completed 2,
average service time 4, one in service at the end with average service time
4, S1 utilization 1, overall utilization 1. -/
theorem c1_scenario_run :
    runView scenarioCfg 40 =
      some
        ([⟨0, .arrival, some 1, "", 1, 1⟩,
          ⟨0, .serviceStart, some 1, "S1", 0, 0⟩,
          ⟨3, .arrival, some 2, "", 1, 0⟩,
          ⟨4, .serviceDone, some 1, "S1", 1, 1⟩,
          ⟨4, .serviceStart, some 2, "S1", 0, 0⟩,
          ⟨6, .arrival, some 3, "", 1, 0⟩,
          ⟨8, .serviceDone, some 2, "S1", 1, 1⟩,
          ⟨8, .serviceStart, some 3, "S1", 0, 0⟩,
          ⟨9, .arrival, some 4, "", 1, 0⟩],
         ⟨2/5, 1, 1, 1, 1, 2, 4, 1, 4, [("S1", 1)], 1⟩) := by
  with_unfolding_all decide

/-- C2 counterexample: with interarrival 3 and horizon 3 the horizon is a
multiple of the interarrival time (1·3 = 3), yet the run's only arrival is
at time 0 — no arrival is generated at exactly t = 3, contradicting the
claim's "an arrival occurs at exactly T when T is a multiple of Δ_a". -/
theorem c2_no_arrival_at_horizon :
    (runSim cfgH3 40).map (fun σ => arrivalTimes σ.eventLog) = .ok [0] ∧
    (1 : ℚ) * cfgH3.interarrival = cfgH3.timeLimit := by
  with_unfolding_all decide

/-- C2 (amended): in every successful run the arrivals happen exactly at the
multiples 0, Δ, …, (k−1)·Δ of the interarrival time that lie strictly below
the horizon T — never at a time ≥ T, in particular not at exactly T even
when T is a multiple of Δ — the set is complete (T ≤ k·Δ), and the clock
still advances to exactly T. -/
theorem c2_arrival_times {cfg : Config} {fuel : Nat} {σf : SimState}
    (h : runSim cfg fuel = .ok σf) :
    σf.now = cfg.timeLimit ∧
    ∃ k : ℕ,
      arrivalTimes σf.eventLog =
        (List.range k).map (fun m : ℕ => (m : ℚ) * cfg.interarrival) ∧
      (∀ t ∈ arrivalTimes σf.eventLog, t < cfg.timeLimit) ∧
      cfg.timeLimit ≤ (k : ℚ) * cfg.interarrival := by
  obtain ⟨h1, _, _, _, _, _, _, k, _, h2, h3, h4⟩ := runSim_final h
  exact ⟨h1, k, h2, h3, h4⟩

/-- C2 witness: the amended arrival-times theorem applied to the concrete
scenario run. -/
theorem c2_arrival_times_witness :
    runSim scenarioCfg 40 = .ok scenarioFinal ∧
    (scenarioFinal.now = scenarioCfg.timeLimit ∧
      ∃ k : ℕ,
        arrivalTimes scenarioFinal.eventLog =
          (List.range k).map
            (fun m : ℕ => (m : ℚ) * scenarioCfg.interarrival) ∧
        (∀ t ∈ arrivalTimes scenarioFinal.eventLog, t < scenarioCfg.timeLimit) ∧
        scenarioCfg.timeLimit ≤ (k : ℚ) * scenarioCfg.interarrival) := by
  have hok : runSim scenarioCfg 40 = .ok scenarioFinal := by
    with_unfolding_all rfl
  exact ⟨hok, c2_arrival_times hok⟩

/-- C3 counterexample: with horizon 0 the run does not log one ARRIVAL and
report zero ratios as claimed — `env.run(until=0)` raises `ValueError`
immediately (the stop time is not greater than the current time 0), so no
event is processed and no log or statistics are produced at all. -/
theorem c3_zero_horizon_raises :
    runSim cfgH0 40 = .error .valueError ∧ runView cfgH0 40 = none := by
  with_unfolding_all decide

/-- C3 (amended): for every configuration with horizon 0 — indeed any
nonpositive horizon — and any fuel, the run raises `ValueError` before
processing any event, so nothing is logged and no statistics are printed. -/
theorem c3_zero_horizon (cfg : Config) (fuel : Nat)
    (h : cfg.timeLimit = 0) :
    runSim cfg fuel = .error .valueError := by
  simp [runSim, h]

/-- C3 witness: the amended zero-horizon theorem applied to the scenario
configuration with horizon 0. -/
theorem c3_zero_horizon_witness :
    cfgH0.timeLimit = 0 ∧ runSim cfgH0 40 = .error .valueError :=
  ⟨rfl, c3_zero_horizon cfgH0 40 rfl⟩

/-- C4: a successful dispatch iteration pairs the customer at the front of
the FIFO queue with the first free server in configured order (every
earlier-indexed server is busy), the dispatcher does nothing when the queue
is empty or no server is free, and in every reachable state the
service-start log lists customer ids in increasing order with every started
id smaller than every id still queued (FIFO: i < j waiting together means i
is dispatched no later than j). -/
theorem c4_fifo_first_free (σ σ' : SimState) (h : dispatchOne σ = some σ')
    (cfg : Config) (τ : SimState) (hr : Reach cfg τ) :
    (∃ c rest i s,
      σ.queue = c :: rest ∧ σ'.queue = rest ∧
      σ.servers[i]? = some s ∧ s.busy = false ∧
      (∀ j, j < i → ∀ sj, σ.servers[j]? = some sj → sj.busy = true) ∧
      σ'.count_started = σ.count_started + 1 ∧
      σ'.servers = σ.servers.set i
        (Server.setBusy { s with current_cid := some c.cid } σ.now true)) ∧
    (∀ υ : SimState, υ.queue = [] ∨ findFree υ.servers = none →
      dispatchOne υ = none) ∧
    ((startedCids τ.eventLog).Pairwise (· < ·) ∧
      ∀ a ∈ startedCids τ.eventLog,
        ∀ b ∈ τ.queue.map (fun c => c.cid), a < b) := by
  refine ⟨?_, ?_, ?_⟩
  · obtain ⟨c, rest, i, s, hq, hf, hnow, hia, htl, hN, hq', hw', hcid, hcur,
      hmax, hcs, hcc, htw, hts, hsrv, hins, hlog, hpend, heid⟩ :=
      dispatchOne_some h
    obtain ⟨hgs, hfree⟩ := findFree_some hf
    exact ⟨c, rest, i, s, hq, hq', hgs, hfree, findFree_first hf, hcs, hsrv⟩
  · intro υ hcase
    rcases hcase with hq | hf
    · exact dispatchOne_nil hq
    · exact dispatchOne_noneFree hf
  · have hi := reach_inv hr
    exact ⟨hi.startedSorted, hi.queueAfterStarted⟩

/-- C4 witness: the dispatch theorem applied to the probe state (one waiting
customer, one free server) and to the reachable scenario start state. -/
theorem c4_fifo_first_free_witness :
    dispatchOne dispatchProbe = some dispatchProbeRes ∧
    Reach scenarioCfg (startState scenarioCfg) ∧
    ((∃ c rest i s,
        dispatchProbe.queue = c :: rest ∧ dispatchProbeRes.queue = rest ∧
        dispatchProbe.servers[i]? = some s ∧ s.busy = false ∧
        (∀ j, j < i → ∀ sj, dispatchProbe.servers[j]? = some sj →
          sj.busy = true) ∧
        dispatchProbeRes.count_started = dispatchProbe.count_started + 1 ∧
        dispatchProbeRes.servers = dispatchProbe.servers.set i
          (Server.setBusy { s with current_cid := some c.cid }
            dispatchProbe.now true)) ∧
      (∀ υ : SimState, υ.queue = [] ∨ findFree υ.servers = none →
        dispatchOne υ = none) ∧
      ((startedCids (startState scenarioCfg).eventLog).Pairwise (· < ·) ∧
        ∀ a ∈ startedCids (startState scenarioCfg).eventLog,
          ∀ b ∈ (startState scenarioCfg).queue.map (fun c => c.cid),
            a < b)) := by
  have hd : dispatchOne dispatchProbe = some dispatchProbeRes := by
    with_unfolding_all rfl
  have hr : Reach scenarioCfg (startState scenarioCfg) :=
    ⟨by norm_num [scenarioCfg], 0, rfl⟩
  exact ⟨hd, hr, c4_fifo_first_free _ _ hd scenarioCfg _ hr⟩

/-- C5: in every state the event loop passes through, the completion count
never exceeds the start count, and at the end of every successful run
count_started = count_completed + (customers in service at the end), where
the in-service count equals both the busy-server count and the number the
final report prints. -/
theorem c5_started_ge_completed (cfg : Config) (σ : SimState)
    (hr : Reach cfg σ) (cfg' : Config) (fuel : Nat) (σf : SimState)
    (hok : runSim cfg' fuel = .ok σf) :
    σ.count_completed ≤ σ.count_started ∧
    σf.count_started = σf.count_completed + busyCount σf.servers ∧
    σf.count_started =
      σf.count_completed + (finalizeStats σf).1.num_in_service_end := by
  have hi := reach_inv hr
  obtain ⟨_, _, hc, _⟩ := runSim_final hok
  refine ⟨by have := hi.counts; omega, hc, ?_⟩
  have hn : (finalizeStats σf).1.num_in_service_end =
      busyCount σf.servers := by
    simp [finalizeStats]
  rw [hn]
  exact hc

/-- C5 witness: the start/completion count theorem applied to the scenario
start state and the scenario run's final state. -/
theorem c5_started_ge_completed_witness :
    Reach scenarioCfg (startState scenarioCfg) ∧
    runSim scenarioCfg 40 = .ok scenarioFinal ∧
    ((startState scenarioCfg).count_completed ≤
        (startState scenarioCfg).count_started ∧
      scenarioFinal.count_started =
        scenarioFinal.count_completed + busyCount scenarioFinal.servers ∧
      scenarioFinal.count_started =
        scenarioFinal.count_completed +
          (finalizeStats scenarioFinal).1.num_in_service_end) := by
  have hr : Reach scenarioCfg (startState scenarioCfg) :=
    ⟨by norm_num [scenarioCfg], 0, rfl⟩
  have hok : runSim scenarioCfg 40 = .ok scenarioFinal := by
    with_unfolding_all rfl
  exact ⟨hr, hok, c5_started_ge_completed scenarioCfg _ hr scenarioCfg 40 _ hok⟩

/-- C6: every CSV line is printed with the queue length and free-server
count recomputed directly from the state at logging time (the entry's ghost
fields record that recomputation), and in every reachable state every
logged line satisfies printed = recomputed for both columns. -/
theorem c6_log_reflects_state (σ0 : SimState) (t : EType) (cu : Option Nat)
    (sv : String) (cfg : Config) (σ : SimState) (hr : Reach cfg σ) :
    ((mkLogEntry σ0 t cu sv).g_len = σ0.queue.length ∧
     (mkLogEntry σ0 t cu sv).g_avail = freeCount σ0.servers ∧
     (mkLogEntry σ0 t cu sv).length = σ0.cur_q_len ∧
     (mkLogEntry σ0 t cu sv).available = serversAvailable σ0.servers) ∧
    ∀ e ∈ σ.eventLog, e.length = e.g_len ∧ e.available = e.g_avail :=
  ⟨⟨rfl, rfl, rfl, rfl⟩, (reach_inv hr).logGhost⟩

/-- C6 witness: the log-consistency theorem applied at the scenario start
state and the reachable state after three event-loop steps (whose log holds
the first three lines). -/
theorem c6_log_reflects_state_witness :
    Reach scenarioCfg scenarioMid3 ∧
    (((mkLogEntry (startState scenarioCfg) EType.arrival (some 1) "").g_len =
        (startState scenarioCfg).queue.length ∧
      (mkLogEntry (startState scenarioCfg) EType.arrival (some 1) "").g_avail =
        freeCount (startState scenarioCfg).servers ∧
      (mkLogEntry (startState scenarioCfg) EType.arrival (some 1) "").length =
        (startState scenarioCfg).cur_q_len ∧
      (mkLogEntry (startState scenarioCfg) EType.arrival (some 1) "").available =
        serversAvailable (startState scenarioCfg).servers) ∧
     ∀ e ∈ scenarioMid3.eventLog,
       e.length = e.g_len ∧ e.available = e.g_avail) := by
  have hr : Reach scenarioCfg scenarioMid3 :=
    ⟨by norm_num [scenarioCfg], 3, by with_unfolding_all rfl⟩
  exact ⟨hr, c6_log_reflects_state (startState scenarioCfg) EType.arrival
    (some 1) "" scenarioCfg scenarioMid3 hr⟩

/-- C7: finalization is idempotent — applying the finalize/statistics step
to the state it itself produced yields the identical report and leaves the
statistics accumulators (queue area, per-server busy time) unchanged. -/
theorem c7_finalize_idempotent (σ : SimState) :
    finalizeStats ((finalizeStats σ).2) = finalizeStats σ :=
  finalize_idem σ

/-- C8: every reported ratio is 0 whenever its denominator is 0 (nonpositive
horizon, or no customers in the relevant set), and at the end of every
successful run each server's reported utilization is its busy-time
integral, closed out to the horizon, divided by the horizon, while the
overall utilization is the sum of those integrals divided by
(server count × horizon). -/
theorem c8_utilization_formulas (σ : SimState) (cfg : Config) (fuel : Nat)
    (σf : SimState) (hok : runSim cfg fuel = .ok σf) :
    (σ.now ≤ 0 →
      (finalizeStats σ).1.avg_q_len = 0 ∧
      (finalizeStats σ).1.overall_util = 0 ∧
      ∀ p ∈ (finalizeStats σ).1.per_server_util, p.2 = 0) ∧
    (σ.count_started = 0 → (finalizeStats σ).1.avg_wait_time = 0) ∧
    (σ.count_completed = 0 →
      (finalizeStats σ).1.avg_service_time_completed = 0) ∧
    (σ.in_service = [] →
      (finalizeStats σ).1.avg_service_time_in_service = 0) ∧
    (σ.waiting_customers = [] →
      (finalizeStats σ).1.avg_wait_remaining = 0) ∧
    (finalizeStats σf).1.per_server_util =
      σf.servers.map (fun s => (s.name,
        (s.busy_time_accum +
          (if s.busy then cfg.timeLimit - s.last_state_change else 0)) /
          cfg.timeLimit)) ∧
    (finalizeStats σf).1.overall_util =
      ((σf.servers.map (fun s => s.busy_time_accum +
          (if s.busy then cfg.timeLimit - s.last_state_change else 0))).sum) /
        ((cfg.servers.length : ℚ) * cfg.timeLimit) := by
  obtain ⟨hT, _⟩ := runSim_ok hok
  obtain ⟨hnow, hN, _⟩ := runSim_final hok
  have hmax : max cfg.timeLimit (0 : ℚ) = cfg.timeLimit :=
    max_eq_left (le_of_lt hT)
  refine ⟨?_, ?_, ?_, ?_, ?_, ?_, ?_⟩
  · intro h0
    have hmax0 : max σ.now (0 : ℚ) = 0 := max_eq_right h0
    refine ⟨?_, ?_, ?_⟩
    · simp only [finalizeStats, hmax0]
      rw [if_neg (lt_irrefl 0)]
    · simp only [finalizeStats, hmax0]
      rw [if_neg]
      intro hc
      exact lt_irrefl 0 hc.2
    · simp only [finalizeStats, hmax0]
      intro p hp
      obtain ⟨s, _, rfl⟩ := List.mem_map.1 hp
      simp
  · intro h0
    simp only [finalizeStats, updQ_count_started, h0]
    rw [if_neg (lt_irrefl 0)]
  · intro h0
    simp only [finalizeStats, updQ_count_completed, h0]
    rw [if_neg (lt_irrefl 0)]
  · intro h0
    simp [finalizeStats, h0]
  · intro h0
    simp [finalizeStats, h0]
  · simp only [finalizeStats, updQ_servers, hnow, hmax]
    exact perUtil_formula cfg.timeLimit hT σf.servers
  · simp only [finalizeStats, updQ_servers, updQ_nServers, hnow, hmax, hN]
    by_cases hN0 : 0 < cfg.servers.length
    · rw [if_pos ⟨hN0, hT⟩, busySum_formula]
    · rw [if_neg]
      · have hz : cfg.servers.length = 0 := by omega
        rw [hz]
        simp
      · intro hc
        exact hN0 hc.1

/-- C8 witness: the ratio-formula theorem applied to the scenario start
state (all denominators 0 there) and the scenario run's final state. -/
theorem c8_utilization_formulas_witness :
    runSim scenarioCfg 40 = .ok scenarioFinal ∧
    (((startState scenarioCfg).now ≤ 0 →
      (finalizeStats (startState scenarioCfg)).1.avg_q_len = 0 ∧
      (finalizeStats (startState scenarioCfg)).1.overall_util = 0 ∧
      ∀ p ∈ (finalizeStats (startState scenarioCfg)).1.per_server_util,
        p.2 = 0) ∧
    ((startState scenarioCfg).count_started = 0 →
      (finalizeStats (startState scenarioCfg)).1.avg_wait_time = 0) ∧
    ((startState scenarioCfg).count_completed = 0 →
      (finalizeStats (startState scenarioCfg)).1.avg_service_time_completed =
        0) ∧
    ((startState scenarioCfg).in_service = [] →
      (finalizeStats (startState scenarioCfg)).1.avg_service_time_in_service =
        0) ∧
    ((startState scenarioCfg).waiting_customers = [] →
      (finalizeStats (startState scenarioCfg)).1.avg_wait_remaining = 0) ∧
    (finalizeStats scenarioFinal).1.per_server_util =
      scenarioFinal.servers.map (fun s => (s.name,
        (s.busy_time_accum +
          (if s.busy then scenarioCfg.timeLimit - s.last_state_change
           else 0)) / scenarioCfg.timeLimit)) ∧
    (finalizeStats scenarioFinal).1.overall_util =
      ((scenarioFinal.servers.map (fun s => s.busy_time_accum +
          (if s.busy then scenarioCfg.timeLimit - s.last_state_change
           else 0))).sum) /
        ((scenarioCfg.servers.length : ℚ) * scenarioCfg.timeLimit)) := by
  have hok : runSim scenarioCfg 40 = .ok scenarioFinal := by
    with_unfolding_all rfl
  exact ⟨hok, c8_utilization_formulas (startState scenarioCfg) scenarioCfg
    40 scenarioFinal hok⟩

/-- C9: in every state between events the redundant trackers agree — the
recorded queue length equals the FIFO queue's length, which equals the
waiting-customers map's size, and the busy-server count equals the
in-service map's size, which is exactly the count the end-of-run report
derives from the busy flags. -/
theorem c9_trackers_agree (cfg : Config) (σ : SimState)
    (hr : Reach cfg σ) :
    σ.cur_q_len = σ.queue.length ∧
    σ.queue.length = σ.waiting_customers.length ∧
    busyCount σ.servers = σ.in_service.length ∧
    (finalizeStats σ).1.num_in_service_end = σ.in_service.length := by
  have hi := reach_inv hr
  have hq : σ.queue.length = σ.waiting_customers.length := by
    have := congrArg List.length hi.qwait
    simpa using this
  have hn : (finalizeStats σ).1.num_in_service_end =
      busyCount σ.servers := by
    simp [finalizeStats]
  exact ⟨hi.qlen, hq, hi.svcLen.symm, hn.trans hi.svcLen.symm⟩

/-- C9 witness: the tracker-agreement theorem applied to the reachable
scenario state after three event-loop steps. -/
theorem c9_trackers_agree_witness :
    Reach scenarioCfg scenarioMid3 ∧
    (scenarioMid3.cur_q_len = scenarioMid3.queue.length ∧
      scenarioMid3.queue.length = scenarioMid3.waiting_customers.length ∧
      busyCount scenarioMid3.servers = scenarioMid3.in_service.length ∧
      (finalizeStats scenarioMid3).1.num_in_service_end =
        scenarioMid3.in_service.length) := by
  have hr : Reach scenarioCfg scenarioMid3 :=
    ⟨by norm_num [scenarioCfg], 3, by with_unfolding_all rfl⟩
  exact ⟨hr, c9_trackers_agree scenarioCfg scenarioMid3 hr⟩

/-- C10: with a strictly positive interarrival time every run performs only
finitely many events — past an explicit fuel bound the outcome is stable and
is never fuel exhaustion, and the number of logged arrivals is at most
⌈T/Δ⌉ + 1 — while with interarrival time 0 (and positive horizon) the
arrival loop schedules unboundedly many arrivals at time 0 and the run
exhausts every amount of fuel. -/
theorem c10_termination (cfg : Config) (hpos : 0 < cfg.interarrival) :
    (∃ N, ∀ fuel, N ≤ fuel →
      runSim cfg fuel = runSim cfg N ∧
      runSim cfg N ≠ .error .outOfFuel) ∧
    (∀ fuel σf, runSim cfg fuel = .ok σf →
      (arrivalTimes σf.eventLog).length ≤
        Nat.ceil (cfg.timeLimit / cfg.interarrival) + 1) ∧
    (∀ fuel, runSim cfgIa0 fuel = .error .outOfFuel) := by
  refine ⟨runSim_terminates hpos, ?_, ?_⟩
  · intro fuel σf hok
    obtain ⟨_, _, _, _, _, _, _, k, _, h2, h3, _⟩ := runSim_final hok
    rw [h2, List.length_map, List.length_range]
    cases k with
    | zero => omega
    | succ k' =>
      have hmem : ((k' : ℚ) * cfg.interarrival) ∈
          arrivalTimes σf.eventLog := by
        rw [h2]
        exact List.mem_map.2 ⟨k', List.mem_range.2 (by omega), rfl⟩
      have hlt := h3 _ hmem
      have hdiv : (k' : ℚ) < cfg.timeLimit / cfg.interarrival :=
        (lt_div_iff₀ hpos).2 hlt
      have := Nat.lt_ceil.2 hdiv
      omega
  · intro fuel
    simp only [runSim]
    rw [if_neg]
    · exact noTerm_zeroIa rfl
        (by intro p hp; simp [cfgIa0] at hp; subst hp; norm_num) fuel _
        ⟨by norm_num [cfgIa0], 0, rfl⟩
    · norm_num [cfgIa0]

/-- C10 witness: the termination theorem applied to the scenario
configuration, whose interarrival time 3 is positive. -/
theorem c10_termination_witness :
    (0 : ℚ) < scenarioCfg.interarrival ∧
    ((∃ N, ∀ fuel, N ≤ fuel →
        runSim scenarioCfg fuel = runSim scenarioCfg N ∧
        runSim scenarioCfg N ≠ .error .outOfFuel) ∧
      (∀ fuel σf, runSim scenarioCfg fuel = .ok σf →
        (arrivalTimes σf.eventLog).length ≤
          Nat.ceil (scenarioCfg.timeLimit / scenarioCfg.interarrival) + 1) ∧
      (∀ fuel, runSim cfgIa0 fuel = .error .outOfFuel)) := by
  have h : (0 : ℚ) < scenarioCfg.interarrival := by norm_num [scenarioCfg]
  exact ⟨h, c10_termination scenarioCfg h⟩
